import Mathlib

/-!
# gmailctl `import` command: serializer and pipeline

A shallow embedding of `cmd/gmailctl/cmd/import_cmd.go`:

* `replaceGroupsRe` with the key pattern of `marshalJsonnet`,
* the read-line / rewrite / write-line loop of `marshalJsonnet`,
* the pipeline `importWithOut` and the orchestrator `doImport`.

Byte slices are lists of bytes, Go `error` values are `Option GoError`
(`none` is `nil`), a run-time panic is an explicit result.
-/

set_option autoImplicit false

namespace Gmailctl

/-! ## Bytes -/

/-- One element of a Go `[]byte`, as a natural number (a real byte is below 256). -/
abbrev Byte := Nat

/-- A Go `[]byte` (only its contents: capacity and aliasing are not modelled). -/
abbrev Bytes := List Byte

/-- The space character. -/
def chSpace : Byte := 32

/-- The double quote character. -/
def chQuote : Byte := 34

/-- The colon character. -/
def chColon : Byte := 58

/-- The line feed character. -/
def chNewline : Byte := 10

/-- The carriage return character. -/
def chCR : Byte := 13

/-- The backslash character. -/
def chBackslash : Byte := 92

/-- The character class `[a-zA-Z01]` of the key pattern. -/
def isKeyChar (c : Byte) : Bool :=
  (97 ≤ c && c ≤ 122) || (65 ≤ c && c ≤ 90) || c == 48 || c == 49

/-- The single-character class of the literal space in ` *`. -/
def isSpaceChar (c : Byte) : Bool := c == chSpace

/-- The single-character class of the literal `"`. -/
def isQuoteChar (c : Byte) : Bool := c == chQuote

/-- The single-character class of the literal `:`. -/
def isColonChar (c : Byte) : Bool := c == chColon

/-! ## Regular expression matching (package `regexp`, leftmost-first semantics)

The matcher is written in continuation-passing style: a continuation receives
the input still to be read and the byte offset reached. A greedy repetition
first tries to take one more character and falls back to the continuation, as
the backtracking semantics of Go's (non-POSIX) regular expressions prescribes.
The pattern contains ASCII characters only, so matching bytes and matching
UTF-8 runes coincide. -/

/-- Submatch indices as returned by `FindSubmatchIndex`; `none` while no match is found. -/
abbrev Cont := Bytes → Nat → Option (List Int)

/-- Match one character of the class `p`, then continue with `k`. -/
def reClass (p : Byte → Bool) (k : Cont) : Cont
  | [], _ => none
  | c :: cs, i => if p c then k cs (i + 1) else none

/-- Greedy `p*`, then `k`: prefer one more character of `p`, else go on with `k`. -/
def reStar (p : Byte → Bool) (k : Cont) : Cont
  | [], i => k [] i
  | c :: cs, i =>
    if p c then
      match reStar p k cs (i + 1) with
      | some m => some m
      | none => k (c :: cs) i
    else k (c :: cs) i

/-- Greedy `p+`, then `k`. -/
def rePlus (p : Byte → Bool) (k : Cont) : Cont :=
  reClass p (reStar p k)

/-- A compiled `*regexp.Regexp`, given by its method `FindSubmatchIndex`
(the empty list is Go's `nil`: no match). -/
structure Regexp where
  /-- The method `FindSubmatchIndex`. -/
  findSubmatchIndex : Bytes → List Int

/-- The pattern `^ *"([a-zA-Z01]+)":` of `marshalJsonnet`. The anchor `^` (no
multi-line flag) lets a match start at offset 0 only, so the search over start
offsets reduces to the attempt at offset 0. The result is
`[start, end, keyb, keye]`, the bounds of the match and of capture group 1. -/
def keyRe : Regexp where
  findSubmatchIndex := fun inp =>
    (reStar isSpaceChar
      (reClass isQuoteChar fun s1 keyb =>
        rePlus isKeyChar
          (fun s2 keye =>
            reClass isQuoteChar
              (reClass isColonChar fun _ e => some [0, (e : Int), (keyb : Int), (keye : Int)])
              s2 keye)
          s1 keyb)
      inp 0).getD []

/-! ## `replaceGroupsRe` -/

/-- The slice expression `xs[lo:hi]`; `none` is the run-time panic for bounds
out of range. The bound checked is the length (Go checks the capacity, which is
at least the length), so a result here is a result in Go. -/
def slice (xs : Bytes) (lo hi : Int) : Option Bytes :=
  if 0 ≤ lo ∧ lo ≤ hi ∧ hi ≤ (xs.length : Int) then
    some ((xs.take hi.toNat).drop lo.toNat)
  else none

/-- The function `replaceGroupsRe`: when `re` matches, the input without the
byte before capture group 1 and without the byte after it; the input itself
otherwise. `none` is a run-time panic (index or slice bounds out of range). -/
def replaceGroupsRe (re : Regexp) (inp : Bytes) : Option Bytes :=
  let m := re.findSubmatchIndex inp
  if m.length = 0 then some inp
  else
    match m.get? 2, m.get? 3 with
    | some keyb, some keye =>
      match slice inp 0 (keyb - 1), slice inp keyb keye, slice inp (keye + 1) inp.length with
      | some a, some b, some c => some (([] ++ a) ++ b ++ c)
      | _, _, _ => none
    | _, _ => none

/-- The line rewrite of `marshalJsonnet`: `replaceGroupsRe(keyRe, line)`. -/
def rewriteLine (line : Bytes) : Option Bytes :=
  replaceGroupsRe keyRe line

/-! ## The key pattern, declaratively -/

/-- The line starts with a match of `^ *"[a-zA-Z01]+":`: `n` spaces, a quoted
non-empty key of class characters, a colon, and anything after. -/
def MatchesKeyPattern (line : Bytes) : Prop :=
  ∃ (n : Nat) (k rest : Bytes), k ≠ [] ∧ (∀ c ∈ k, isKeyChar c = true) ∧
    line = List.replicate n chSpace ++ chQuote :: k ++ chQuote :: chColon :: rest

/-- The white space class `\s` of Go regular expressions: `[\t\n\f\r ]`. -/
def isWhiteSpace (c : Byte) : Bool :=
  c == 9 || c == 10 || c == 12 || c == 13 || c == 32

/-- The bytes of an ASCII string literal. -/
def str (s : String) : Bytes := s.toList.map Char.toNat

/-- Scan for a double quote that no backslash escapes; the flag tells that the
previous character was an escaping backslash. -/
def scanQuote : Bool → Bytes → Bool
  | _, [] => false
  | true, _ :: cs => scanQuote false cs
  | false, c :: cs =>
    if c == chBackslash then scanQuote true cs
    else if c == chQuote then true
    else scanQuote false cs

/-- The text of a JSON string body contains a double quote that no backslash
escapes (a backslash escapes the character after it). -/
def hasUnescapedQuote (s : Bytes) : Bool := scanQuote false s

/-- A letter or an underscore: the first character of an identifier. -/
def isIdentStart (c : Byte) : Bool :=
  (97 ≤ c && c ≤ 122) || (65 ≤ c && c ≤ 90) || c == 95

/-- A letter, a digit or an underscore: a later character of an identifier. -/
def isIdentChar (c : Byte) : Bool :=
  isIdentStart c || (48 ≤ c && c ≤ 57)

/-- An identifier-like name, which the JSON-superset language accepts as an
unquoted key: it begins with a letter or underscore and continues with letters,
digits or underscores. -/
def isIdentifier : Bytes → Bool
  | [] => false
  | c :: cs => isIdentStart c && cs.all isIdentChar

/-! ## Errors -/

/-- A Go `error` value other than `nil`. -/
inductive GoError where
  /-- The error `io.EOF`. -/
  | eof
  /-- The error `io.ErrShortWrite`. -/
  | errShortWrite
  /-- An error reported by a collaborator or by the operating system. -/
  | other (msg : String)
  /-- The result of `errors.Wrap(cause, msg)` for a non-nil `cause`. -/
  | wrapped (cause : GoError) (msg : String)
  /-- The result of `configurationError(cause)`. -/
  | configuration (cause : GoError)
  deriving DecidableEq

/-- The function `errors.Wrap` of `github.com/pkg/errors`: it annotates `err`
with a message, and returns `nil` when `err` is `nil`. -/
def errorsWrap (err : Option GoError) (msg : String) : Option GoError :=
  match err with
  | none => none
  | some e => some (GoError.wrapped e msg)

/-- Modelled from the spec: `configurationError`, declared elsewhere in package
`cmd`, is missing from the sources. It surfaces an environment/configuration
error "with a distinguishing wrapper so callers can special-case configuration
problems". -/
def configurationError (err : Option GoError) : Option GoError :=
  match err with
  | none => none
  | some e => some (GoError.configuration e)

/-! ## The destination (`*os.File`) -/

/-- The behaviour of the destination: the answer `(n, e)` of the operating
system to a request to write `p`, given the requests made before. -/
structure Dest where
  /-- The answer to a write request. -/
  sysWrite : List Bytes → Bytes → Nat × Option GoError

/-- The state of the destination: the write requests received, oldest first,
and the bytes accepted. -/
structure Sink where
  /-- The arguments of the calls to `Write`, oldest first. -/
  calls : List Bytes
  /-- The bytes accepted so far. -/
  data : Bytes
  deriving DecidableEq

/-- The method `(*os.File).Write`: at most `len(p)` bytes are accepted; the error
is the one of the operating system, `io.ErrShortWrite` when fewer than `len(p)`
bytes were accepted without one. -/
def Dest.write (d : Dest) (s : Sink) (p : Bytes) : (Nat × Option GoError) × Sink :=
  let r := d.sysWrite s.calls p
  let n := min r.1 p.length
  let err : Option GoError :=
    match r.2 with
    | some e => some e
    | none => if n ≠ p.length then some GoError.errShortWrite else none
  ((n, err), { calls := s.calls ++ [p], data := s.data ++ p.take n })

/-- A destination that accepts every write in full. -/
def Dest.acceptAll : Dest where
  sysWrite := fun _ p => (p.length, none)

/-- The destination accepts all writes. -/
def Dest.AcceptsAll (d : Dest) : Prop :=
  ∀ (h : List Bytes) (p : Bytes), d.sysWrite h p = (p.length, none)

/-! ## Buffered reading (`bufio.Reader` over a `bytes.Reader`) -/

/-- The size of the buffers of `bufio.NewReader` and `bufio.NewWriter`
(`defaultBufSize` of package `bufio`). -/
def defaultBufSize : Nat := 4096

/-- The function `bytes.IndexByte`. -/
def indexByte (s : Bytes) (c : Byte) : Option Nat :=
  if s.indexOf c < s.length then some (s.indexOf c) else none

/-- The three results of `ReadLine`. -/
structure ReadLineResult where
  /-- The line, without its end-of-line bytes. -/
  line : Bytes
  /-- The line did not fit the buffer: only its beginning is returned. -/
  isPrefix : Bool
  /-- The error: `io.EOF` when no byte is left. -/
  err : Option GoError
  deriving DecidableEq

/-- The method `(*bufio.Reader).ReadLine` of a reader with a buffer of `size`
bytes, on the text `rem` not yet returned (buffered or still in the
`bytes.Reader`); the second component is the text left after the call.

`ReadSlice('\n')` looks for the delimiter in the buffer, refilled up to `size`
bytes: when it finds it, the line ends there; when the buffer is full without
one, it fails with `ErrBufferFull` and `ReadLine` returns the whole buffer as a
prefix (`isPrefix`), putting back a final `\r`; at the end of the text the bytes
left are the last line, and `io.EOF` is returned once nothing is left. -/
def readLine (size : Nat) (rem : Bytes) : ReadLineResult × Bytes :=
  match indexByte (rem.take size) chNewline with
  | some i =>
    let line := rem.take (i + 1)
    let drop := if line.length > 1 ∧ line.get? (line.length - 2) = some chCR then 2 else 1
    ({ line := line.take (line.length - drop), isPrefix := false, err := none },
      rem.drop (i + 1))
  | none =>
    if size ≤ rem.length then
      let line := rem.take size
      if line.length > 0 ∧ line.get? (line.length - 1) = some chCR then
        ({ line := line.take (line.length - 1), isPrefix := true, err := none },
          rem.drop (size - 1))
      else
        ({ line := line, isPrefix := true, err := none }, rem.drop size)
    else if rem.length = 0 then
      ({ line := [], isPrefix := false, err := some GoError.eof }, [])
    else
      ({ line := rem, isPrefix := false, err := none }, [])

/-! ## Buffered writing (`bufio.Writer`) -/

/-- The state of a `bufio.Writer`: the bytes buffered (`b.buf[0:b.n]`) and the
sticky error `b.err`. -/
structure BufWriter where
  /-- The bytes buffered and not yet flushed. -/
  buf : Bytes
  /-- The sticky error. -/
  err : Option GoError
  deriving DecidableEq

/-- The method `Available`: the bytes unused in a buffer of `size` bytes. -/
def BufWriter.available (size : Nat) (b : BufWriter) : Nat :=
  size - b.buf.length

/-- The method `Flush`. -/
def BufWriter.flush (d : Dest) (b : BufWriter) (s : Sink) :
    Option GoError × BufWriter × Sink :=
  match b.err with
  | some e => (some e, b, s)
  | none =>
    if b.buf.length = 0 then (none, b, s)
    else
      let r := d.write s b.buf
      let n := r.1.1
      let err : Option GoError :=
        if n < b.buf.length ∧ r.1.2 = none then some GoError.errShortWrite else r.1.2
      match err with
      | some e => (some e, { buf := b.buf.drop n, err := some e }, r.2)
      | none => (none, { buf := [], err := none }, r.2)

/-- The loop of the method `Write`: while `p` does not fit the buffer and no
error is pending, either write `p` directly (empty buffer) or fill the buffer
and flush it. `(*os.File).Write` reports an error whenever it accepts fewer
bytes than asked, so the loop runs at most twice; `fuel` bounds it. -/
def BufWriter.writeLoop (size : Nat) (d : Dest) :
    Nat → BufWriter → Sink → Bytes → Nat → BufWriter × Sink × Bytes × Nat
  | 0, b, s, p, nn => (b, s, p, nn)
  | fuel + 1, b, s, p, nn =>
    if p.length > b.available size ∧ b.err = none then
      if b.buf.length = 0 then
        let r := d.write s p
        BufWriter.writeLoop size d fuel { b with err := r.1.2 } r.2 (p.drop r.1.1) (nn + r.1.1)
      else
        let n := min (b.available size) p.length
        let r := BufWriter.flush d { b with buf := b.buf ++ p.take n } s
        BufWriter.writeLoop size d fuel r.2.1 r.2.2 (p.drop n) (nn + n)
    else (b, s, p, nn)

/-- The method `Write`. -/
def BufWriter.write (size : Nat) (d : Dest) (b : BufWriter) (s : Sink) (p : Bytes) :
    (Nat × Option GoError) × BufWriter × Sink :=
  let r := BufWriter.writeLoop size d 2 b s p 0
  let b1 := r.1
  let p1 := r.2.2.1
  let nn := r.2.2.2
  match b1.err with
  | some e => ((nn, some e), b1, r.2.1)
  | none =>
    let n := min (b1.available size) p1.length
    ((nn + n, none), { b1 with buf := b1.buf ++ p1.take n }, r.2.1)

/-- The method `WriteByte`. -/
def BufWriter.writeByte (size : Nat) (d : Dest) (b : BufWriter) (s : Sink) (c : Byte) :
    Option GoError × BufWriter × Sink :=
  match b.err with
  | some e => (some e, b, s)
  | none =>
    if b.available size ≤ 0 then
      let r := BufWriter.flush d b s
      match r.1 with
      | some _ => (r.2.1.err, r.2.1, r.2.2)
      | none => (none, { r.2.1 with buf := r.2.1.buf ++ [c] }, r.2.2)
    else (none, { b with buf := b.buf ++ [c] }, s)

/-- The method `WriteRune` for a rune below `utf8.RuneSelf`: `(size, err)`. -/
def BufWriter.writeRune (size : Nat) (d : Dest) (b : BufWriter) (s : Sink) (c : Byte) :
    (Nat × Option GoError) × BufWriter × Sink :=
  let r := BufWriter.writeByte size d b s c
  match r.1 with
  | some e => ((0, some e), r.2)
  | none => ((1, none), r.2)

/-! ## `marshalJsonnet` -/

/-- How a function call ends. -/
inductive Ret where
  /-- The function returns the error `err` (`none` is `nil`). -/
  | returned (err : Option GoError)
  /-- The function panics. -/
  | panicked
  /-- The bound on the number of iterations was too small (never the case,
  see `marshalJsonnet_terminates`). -/
  | outOfFuel
  deriving DecidableEq

/-- The statements of `marshalJsonnet` after its loop, left with the error
`err`: `if err == io.EOF { return writer.Flush() }` and `return err`. -/
def marshalExit (d : Dest) (err : Option GoError) (b : BufWriter) (s : Sink) :
    Ret × BufWriter × Sink :=
  if err = some GoError.eof then
    let r := BufWriter.flush d b s
    (Ret.returned r.1, r.2)
  else (Ret.returned err, b, s)

/-- The loop `for err == nil { ... }` of `marshalJsonnet`, followed by the
statements after it; it is entered with the results `line`, `err` of the last
`ReadLine`, the text `rem` the reader has left, and the writer. -/
def marshalLoop (size : Nat) (d : Dest) :
    Nat → Bytes → Option GoError → Bytes → BufWriter → Sink → Ret × BufWriter × Sink
  | 0, _, err, _, b, s =>
    match err with
    | some e => marshalExit d (some e) b s
    | none => (Ret.outOfFuel, b, s)
  | fuel + 1, line, err, rem, b, s =>
    match err with
    | some e => marshalExit d (some e) b s
    | none =>
      match replaceGroupsRe keyRe line with
      | none => (Ret.panicked, b, s)
      | some line1 =>
        let r1 := BufWriter.write size d b s line1
        match r1.1.2 with
        | some e => marshalExit d (some e) r1.2.1 r1.2.2
        | none =>
          let r2 := BufWriter.writeRune size d r1.2.1 r1.2.2 chNewline
          match r2.1.2 with
          | some e => marshalExit d (some e) r2.2.1 r2.2.2
          | none =>
            let r3 := readLine size rem
            marshalLoop size d fuel r3.1.line r3.1.err r3.2 r2.2.1 r2.2.2

/-- The calls made on the collaborators and on the file system. -/
inductive Event where
  /-- The call `os.OpenFile(path, O_WRONLY|O_CREATE|O_TRUNC, 0600)`. -/
  | openFile (path : String)
  /-- The call `f.Close()`. -/
  | closeFile
  /-- The call `openAPI()`. -/
  | openAPI
  /-- The call `upstreamFilters(gmailapi)`. -/
  | upstreamFilters
  /-- The call `rimport.Import(upstream)`. -/
  | rimportImport
  /-- The call `json.MarshalIndent(v, "", "  ")`. -/
  | marshalIndent
  deriving DecidableEq

/-- The observable state of a run: the calls made so far, oldest first, and the
output sink. -/
structure World where
  /-- The calls made, oldest first. -/
  trace : List Event
  /-- The output sink. -/
  sink : Sink
  deriving DecidableEq

/-- Record a call. -/
def World.log (w : World) (e : Event) : World :=
  { w with trace := w.trace ++ [e] }

/-- The collaborators of the pipeline, given by their results. -/
structure Env (Api Upstream Config : Type) where
  /-- The error `e` of `os.OpenFile` on a path (`none`: the file is open). -/
  openFile : String → Option GoError
  /-- The error of `f.Close()`. -/
  closeFile : Option GoError
  /-- The function `openAPI`. -/
  openAPI : Except GoError Api
  /-- The function `upstreamFilters`. -/
  upstreamFilters : Api → Except GoError Upstream
  /-- The function `rimport.Import`. -/
  rimportImport : Upstream → Except GoError Config
  /-- The function `json.MarshalIndent(v, "", "  ")`. -/
  marshalIndent : Config → Except GoError Bytes
  /-- The behaviour of `os.Stdout`. -/
  stdout : Dest
  /-- The behaviour of the file opened at the output path. -/
  file : Dest

/-- The function `marshalJsonnet`, with the encoder `json.MarshalIndent` as a
parameter: encode, then read the text line by line, rewrite each line and write
it with a newline; flush at the end of the text. -/
def marshalJsonnet {V : Type} (marshalIndent : V → Except GoError Bytes) (v : V) (d : Dest)
    (w : World) : Ret × World :=
  let w1 := w.log Event.marshalIndent
  match marshalIndent v with
  | Except.error e => (Ret.returned (some e), w1)
  | Except.ok b =>
    let writer : BufWriter := { buf := [], err := none }
    let r := readLine defaultBufSize b
    let res := marshalLoop defaultBufSize d (b.length + 1) r.1.line r.1.err r.2 writer w1.sink
    (res.1, { w1 with sink := res.2.2 })

/-! ## The pipeline -/

/-- The function `importWithOut`. -/
def importWithOut {Api Upstream Config : Type} (env : Env Api Upstream Config) (out : Dest)
    (w : World) : Ret × World :=
  let w1 := w.log Event.openAPI
  match env.openAPI with
  | Except.error err =>
    (Ret.returned (configurationError (errorsWrap (some err) "cannot connect to Gmail")), w1)
  | Except.ok gmailapi =>
    let w2 := w1.log Event.upstreamFilters
    match env.upstreamFilters gmailapi with
    | Except.error err => (Ret.returned (some err), w2)
    | Except.ok upstream =>
      let w3 := w2.log Event.rimportImport
      match env.rimportImport upstream with
      | Except.error err => (Ret.returned (some err), w3)
      | Except.ok cfg =>
        match marshalJsonnet env.marshalIndent cfg out w3 with
        | (Ret.returned (some err), w4) =>
          (Ret.returned (errorsWrap (some err) "error converting to Jsonnet"), w4)
        | (Ret.returned none, w4) => (Ret.returned none, w4)
        | (r, w4) => (r, w4)

/-- The state before a run: no call made, nothing written. -/
def World.init : World :=
  { trace := [], sink := { calls := [], data := [] } }

/-- The function `doImport`, run from the state `World.init`. The result
variable `err` is `nil` until a `return` assigns it; the function registered
with `defer` runs after that assignment, also when the body panics. -/
def doImport {Api Upstream Config : Type} (env : Env Api Upstream Config)
    (outputPath : String) : Ret × World :=
  let w0 : World := World.init
  let err : Option GoError := none
  if outputPath = "" then
    importWithOut env env.stdout w0
  else
    let w1 := w0.log (Event.openFile outputPath)
    match env.openFile outputPath with
    | some _ => (Ret.returned (errorsWrap err "cannot open output"), w1)
    | none =>
      let r := importWithOut env env.file w1
      let w2 := r.2.log Event.closeFile
      let e := env.closeFile
      match r.1 with
      | Ret.returned err1 => (Ret.returned (if err1 = none then e else err1), w2)
      | other => (other, w2)

/-! ## Lines of a text -/

/-- The lines that successive calls of `ReadLine` return until one reports an
error (`fuel` bounds the number of calls). -/
def readLines (size : Nat) : Nat → Bytes → List Bytes
  | 0, _ => []
  | fuel + 1, rem =>
    match (readLine size rem).1.err with
    | some _ => []
    | none => (readLine size rem).1.line :: readLines size fuel (readLine size rem).2

/-- The line after the rewrite (the line itself, should the rewrite panic). -/
def rewritten (line : Bytes) : Bytes :=
  (rewriteLine line).getD line

/-- The newline-delimited lines of a text, in order. -/
def splitLines : Bytes → List Bytes
  | [] => [[]]
  | c :: cs =>
    if c = chNewline then [] :: splitLines cs
    else
      match splitLines cs with
      | [] => [[c]]
      | l :: ls => (c :: l) :: ls

/-- The output described for the serializer: every newline-delimited line of
the text, rewritten and followed by a single newline character, in order. -/
def expectedOutput (text : Bytes) : Bytes :=
  ((splitLines text).map fun l => rewritten l ++ [chNewline]).flatten

/-! ## Sample inputs -/

/-- The canonical JSON text of the string made of 4095 letters `a`: 4097 bytes
on one line, one more than the buffer of the line reader holds. -/
def longStringText : Bytes :=
  chQuote :: List.replicate 4095 97 ++ [chQuote]

/-- An environment in which the connection, the fetch and the conversion
succeed, the encoder returns `text`, both destinations accept all writes, and
opening and closing the output file give `openErr` and `closeErr`. -/
def sampleEnv (openErr closeErr : Option GoError) (text : Bytes) : Env Unit Unit Unit where
  openFile := fun _ => openErr
  closeFile := closeErr
  openAPI := Except.ok ()
  upstreamFilters := fun _ => Except.ok ()
  rimportImport := fun _ => Except.ok ()
  marshalIndent := fun _ => Except.ok text
  stdout := Dest.acceptAll
  file := Dest.acceptAll

/-- An environment like `sampleEnv` in which the fetch fails with `fetchErr`. -/
def fetchFailEnv (closeErr : Option GoError) (fetchErr : GoError) : Env Unit Unit Unit where
  openFile := fun _ => none
  closeFile := closeErr
  openAPI := Except.ok ()
  upstreamFilters := fun _ => Except.error fetchErr
  rimportImport := fun _ => Except.ok ()
  marshalIndent := fun _ => Except.ok []
  stdout := Dest.acceptAll
  file := Dest.acceptAll

/-! ## Notions and sample inputs for the pipeline -/

/-- An environment over trivial values, given by the result of each step; the
output file opens, and `os.Stdout` behaves as the file does. -/
def pipelineEnv (api fetch conv : Except GoError Unit) (enc : Except GoError Bytes)
    (file : Dest) (closeErr : Option GoError) : Env Unit Unit Unit where
  openFile := fun _ => none
  closeFile := closeErr
  openAPI := api
  upstreamFilters := fun _ => fetch
  rimportImport := fun _ => conv
  marshalIndent := fun _ => enc
  stdout := file
  file := file

/-- A destination that rejects every write. -/
def Dest.rejectAll : Dest where
  sysWrite := fun _ _ => (0, some (GoError.other "write: no space left on device"))

/-- Every write of the list, made in order after the writes `hist`, is accepted
in full and without error by the destination. -/
def Dest.allAccepted (d : Dest) : List Bytes → List Bytes → Bool
  | _, [] => true
  | hist, p :: ps =>
    ((d.write { calls := hist, data := [] } p).1.2 == none) &&
      Dest.allAccepted d (hist ++ [p]) ps

/-- The first character of the line other than a space is a double quote. -/
def FirstNonSpaceIsQuote (line : Bytes) : Prop :=
  ∃ (n : Nat) (rest : Bytes), line = List.replicate n chSpace ++ chQuote :: rest

/-! # Theorems -/

/-! ## The matcher -/

theorem reClass_some {p : Byte → Bool} {k : Cont} {s : Bytes} {i : Nat} {m : List Int}
    (h : reClass p k s i = some m) :
    ∃ c cs, s = c :: cs ∧ p c = true ∧ k cs (i + 1) = some m := by
  cases s with
  | nil => simp [reClass] at h
  | cons c cs =>
    by_cases hp : p c = true
    · refine ⟨c, cs, rfl, hp, ?_⟩
      simpa [reClass, hp] using h
    · simp [reClass, hp] at h

theorem reStar_some {p : Byte → Bool} {k : Cont} {s : Bytes} {i : Nat} {m : List Int}
    (h : reStar p k s i = some m) :
    ∃ pre suf, s = pre ++ suf ∧ (∀ c ∈ pre, p c = true) ∧ k suf (i + pre.length) = some m := by
  induction s generalizing i with
  | nil => exact ⟨[], [], rfl, by simp, by simpa [reStar] using h⟩
  | cons c cs ih =>
    by_cases hp : p c = true
    · cases hrec : reStar p k cs (i + 1) with
      | none =>
        refine ⟨[], c :: cs, rfl, by simp, ?_⟩
        simpa [reStar, hp, hrec] using h
      | some m1 =>
        have hm : m1 = m := by simpa [reStar, hp, hrec] using h
        subst hm
        obtain ⟨pre, suf, hs, hpre, hk⟩ := ih hrec
        refine ⟨c :: pre, suf, by simp [hs], ?_, ?_⟩
        · intro d hd
          rcases List.mem_cons.mp hd with rfl | hd
          · exact hp
          · exact hpre d hd
        · rw [← hk]
          simp [Nat.add_assoc, Nat.add_comm 1]
    · refine ⟨[], c :: cs, rfl, by simp, ?_⟩
      simpa [reStar, hp] using h

theorem reStar_append {p : Byte → Bool} {k : Cont} (pre suf : Bytes) (i : Nat)
    (hk : ∀ c cs j, p c = true → k (c :: cs) j = none)
    (hpre : ∀ c ∈ pre, p c = true)
    (hsuf : ∀ c cs, suf = c :: cs → p c = false) :
    reStar p k (pre ++ suf) i = k suf (i + pre.length) := by
  induction pre generalizing i with
  | nil =>
    cases suf with
    | nil => simp [reStar]
    | cons c cs => simp [reStar, hsuf c cs rfl]
  | cons c pre ih =>
    have hp : p c = true := hpre c (List.mem_cons_self _ _)
    have ih1 := ih (i + 1) (fun d hd => hpre d (List.mem_cons_of_mem _ hd))
    have hi : i + 1 + pre.length = i + (c :: pre).length := by
      simp [Nat.add_assoc, Nat.add_comm 1]
    cases hrec : k suf (i + (c :: pre).length) with
    | none =>
      rw [hi, hrec] at ih1
      simp [reStar, hp, ih1, hk c (pre ++ suf) i hp]
    | some m =>
      rw [hi, hrec] at ih1
      simp [reStar, hp, ih1]

theorem isKeyChar_not_quote {c : Byte} (h : isKeyChar c = true) : isQuoteChar c = false := by
  simp only [isKeyChar, isQuoteChar, chQuote, Bool.or_eq_true, Bool.and_eq_true,
    decide_eq_true_eq, beq_iff_eq] at h ⊢
  simp only [beq_eq_false_iff_ne, ne_eq]
  unfold Byte at *
  omega

theorem isSpaceChar_not_quote {c : Byte} (h : isSpaceChar c = true) : isQuoteChar c = false := by
  simp only [isSpaceChar, isQuoteChar, chSpace, chQuote, beq_iff_eq] at h ⊢
  simp only [beq_eq_false_iff_ne, ne_eq]
  unfold Byte at *
  omega

theorem all_space_eq_replicate (pre : Bytes) (h : ∀ c ∈ pre, isSpaceChar c = true) :
    pre = List.replicate pre.length chSpace := by
  refine List.eq_replicate_iff.mpr ⟨rfl, ?_⟩
  intro c hc
  simpa [isSpaceChar] using h c hc

/-- The matcher on a line of the shape of the pattern: the match and the key bounds. -/
theorem keyRe_of_shape (n : Nat) (k rest : Bytes) (hk : k ≠ [])
    (hall : ∀ c ∈ k, isKeyChar c = true) :
    keyRe.findSubmatchIndex
        (List.replicate n chSpace ++ chQuote :: k ++ chQuote :: chColon :: rest) =
      [0, ((n + 1 + k.length + 2 : Nat) : Int), ((n + 1 : Nat) : Int),
        ((n + 1 + k.length : Nat) : Int)] := by
  obtain ⟨c, k1, rfl⟩ := List.exists_cons_of_ne_nil hk
  have hc : isKeyChar c = true := hall c (List.mem_cons_self _ _)
  have hk1 : ∀ d ∈ k1, isKeyChar d = true := fun d hd => hall d (List.mem_cons_of_mem _ hd)
  unfold keyRe
  simp only
  rw [List.append_assoc, reStar_append (List.replicate n chSpace) _ 0
    (fun d cs j hd => by simp [reClass, isSpaceChar_not_quote hd])
    (fun d hd => by simp [isSpaceChar, List.eq_of_mem_replicate hd])
    (fun d cs h => by
      simp only [List.cons_append, List.cons.injEq] at h
      rw [← h.1]; rfl)]
  simp only [List.cons_append, reClass, isQuoteChar, beq_self_eq_true, if_true, rePlus, hc,
    List.length_replicate, Nat.zero_add]
  rw [reStar_append k1 _ (n + 1 + 1)
    (fun d cs j hd => by
      have := isKeyChar_not_quote hd
      simp only [isQuoteChar] at this
      simp [reClass, this])
    hk1
    (fun d cs h => by
      simp only [List.cons.injEq] at h
      rw [← h.1]; rfl)]
  simp [reClass, isColonChar, Nat.add_assoc, Nat.add_comm, Nat.add_left_comm]

/-- Whenever the matcher reports a match, the line has the shape of the pattern. -/
theorem keyRe_some_shape (inp : Bytes) (h : keyRe.findSubmatchIndex inp ≠ []) :
    MatchesKeyPattern inp := by
  unfold keyRe at h
  simp only at h
  cases hm : reStar isSpaceChar
      (reClass isQuoteChar fun s1 keyb =>
        rePlus isKeyChar
          (fun s2 keye =>
            reClass isQuoteChar
              (reClass isColonChar fun _ e => some [0, (e : Int), (keyb : Int), (keye : Int)])
              s2 keye)
          s1 keyb)
      inp 0 with
  | none => rw [hm] at h; simp at h
  | some m =>
    obtain ⟨pre, suf, hinp, hpre, h1⟩ := reStar_some hm
    obtain ⟨q1, s1, hsuf, hq1, h2⟩ := reClass_some h1
    obtain ⟨c, s2, hs1, hc, h3⟩ := reClass_some h2
    obtain ⟨k1, s3, hs2, hk1, h4⟩ := reStar_some h3
    obtain ⟨q2, s4, hs3, hq2, h5⟩ := reClass_some h4
    obtain ⟨col, rest, hs4, hcol, _⟩ := reClass_some h5
    simp only [isQuoteChar, isColonChar, beq_iff_eq] at hq1 hq2 hcol
    refine ⟨pre.length, c :: k1, rest, by simp, ?_, ?_⟩
    · intro d hd
      rcases List.mem_cons.mp hd with rfl | hd
      · exact hc
      · exact hk1 d hd
    · rw [← all_space_eq_replicate pre hpre, hinp, hsuf, hs1, hs2, hs3, hs4, hq1, hq2, hcol]
      simp

/-! ## `replaceGroupsRe` with the key pattern -/

theorem slice_nat (xs : Bytes) (lo hi : Nat) (h1 : lo ≤ hi) (h2 : hi ≤ xs.length) :
    slice xs (lo : Int) (hi : Int) = some ((xs.take hi).drop lo) := by
  unfold slice
  rw [if_pos ⟨by omega, by omega, by omega⟩]
  simp

/-- The rewrite of a line of the shape of the pattern removes the two quotes of the key. -/
theorem rewriteLine_shape (n : Nat) (k rest : Bytes) (hk : k ≠ [])
    (hall : ∀ c ∈ k, isKeyChar c = true) :
    rewriteLine (List.replicate n chSpace ++ chQuote :: k ++ chQuote :: chColon :: rest) =
      some (List.replicate n chSpace ++ k ++ chColon :: rest) := by
  unfold rewriteLine replaceGroupsRe
  simp only [keyRe_of_shape n k rest hk hall]
  have e1 : (((n + 1 : Nat) : Int) - 1) = ((n : Nat) : Int) := by push_cast; ring
  have e2 : (((n + 1 + k.length : Nat) : Int) + 1) = ((n + 1 + k.length + 1 : Nat) : Int) := by
    push_cast; ring
  have hlen : (List.replicate n chSpace ++ chQuote :: k ++ chQuote :: chColon :: rest).length
      = n + 1 + k.length + 2 + rest.length := by
    simp; omega
  have s1 := slice_nat (List.replicate n chSpace ++ chQuote :: k ++ chQuote :: chColon :: rest)
    0 n (by omega) (by rw [hlen]; omega)
  have s2 := slice_nat (List.replicate n chSpace ++ chQuote :: k ++ chQuote :: chColon :: rest)
    (n + 1) (n + 1 + k.length) (by omega) (by rw [hlen]; omega)
  have s3 := slice_nat (List.replicate n chSpace ++ chQuote :: k ++ chQuote :: chColon :: rest)
    (n + 1 + k.length + 1)
    (List.replicate n chSpace ++ chQuote :: k ++ chQuote :: chColon :: rest).length
    (by rw [hlen]; omega) (le_refl _)
  have t1 : ((List.replicate n chSpace ++ chQuote :: k ++ chQuote :: chColon :: rest).take n).drop 0
      = List.replicate n chSpace := by
    rw [List.drop_zero, List.append_assoc]
    exact List.take_left' (by simp)
  have t2 : ((List.replicate n chSpace ++ chQuote :: k ++ chQuote :: chColon :: rest).take
      (n + 1 + k.length)).drop (n + 1) = k := by
    have : List.replicate n chSpace ++ chQuote :: k ++ chQuote :: chColon :: rest
        = (List.replicate n chSpace ++ [chQuote]) ++ k ++ chQuote :: chColon :: rest := by simp
    rw [this, List.take_left' (by simp; omega), List.drop_left' (by simp)]
  have t3 : ((List.replicate n chSpace ++ chQuote :: k ++ chQuote :: chColon :: rest).take
      (List.replicate n chSpace ++ chQuote :: k ++ chQuote :: chColon :: rest).length).drop
      (n + 1 + k.length + 1) = chColon :: rest := by
    have : List.replicate n chSpace ++ chQuote :: k ++ chQuote :: chColon :: rest
        = (List.replicate n chSpace ++ [chQuote] ++ k ++ [chQuote]) ++ chColon :: rest := by simp
    rw [List.take_length, this, List.drop_left' (by simp; omega)]
  rw [t1] at s1
  rw [t2] at s2
  rw [t3] at s3
  simp only [Nat.cast_zero] at s1
  simp only [List.length_cons, List.length_nil, List.get?_cons_succ, List.get?_cons_zero,
    Nat.succ_ne_zero, if_false, e1, e2, s1, s2, s3]
  simp

/-- A line that does not have the shape of the pattern is returned as it is. -/
theorem rewriteLine_no_match (line : Bytes) (h : ¬ MatchesKeyPattern line) :
    rewriteLine line = some line := by
  have hm : keyRe.findSubmatchIndex line = [] := by
    by_contra hne
    exact h (keyRe_some_shape line hne)
  simp [rewriteLine, replaceGroupsRe, hm]

/-- The matcher reports a match exactly on the lines of the shape of the pattern. -/
theorem matchesKeyPattern_iff (line : Bytes) :
    MatchesKeyPattern line ↔ keyRe.findSubmatchIndex line ≠ [] := by
  constructor
  · rintro ⟨n, k, rest, hk, hall, rfl⟩
    rw [keyRe_of_shape n k rest hk hall]
    simp
  · exact keyRe_some_shape line

/-- No match when the first character after the leading spaces is not a quote. -/
theorem keyRe_first_not_quote (pre suf : Bytes) (hpre : ∀ c ∈ pre, isSpaceChar c = true)
    (hsuf : ∀ c cs, suf = c :: cs → isSpaceChar c = false ∧ isQuoteChar c = false) :
    keyRe.findSubmatchIndex (pre ++ suf) = [] := by
  unfold keyRe
  simp only
  rw [reStar_append pre suf 0
    (fun d cs j hd => by simp [reClass, isSpaceChar_not_quote hd]) hpre
    (fun c cs h => (hsuf c cs h).1)]
  cases suf with
  | nil => simp [reClass]
  | cons c cs => simp [reClass, (hsuf c cs rfl).2]

/-- No match when the run of key characters after the opening quote is empty or
is not followed by a quote and a colon. -/
theorem keyRe_key_run (pre run suf : Bytes) (hpre : ∀ c ∈ pre, isSpaceChar c = true)
    (hrun : ∀ c ∈ run, isKeyChar c = true)
    (hsuf : ∀ c cs, suf = c :: cs → isKeyChar c = false)
    (hno : run = [] ∨ ∀ rest, suf ≠ chQuote :: chColon :: rest) :
    keyRe.findSubmatchIndex (pre ++ chQuote :: run ++ suf) = [] := by
  unfold keyRe
  simp only
  rw [List.append_assoc, reStar_append pre _ 0
    (fun d cs j hd => by simp [reClass, isSpaceChar_not_quote hd]) hpre
    (fun d cs h => by
      simp only [List.cons_append, List.cons.injEq] at h
      rw [← h.1]; rfl)]
  simp only [List.cons_append, reClass, isQuoteChar, beq_self_eq_true, if_true, rePlus]
  cases run with
  | nil =>
    cases suf with
    | nil => simp [reClass]
    | cons c cs => simp [reClass, hsuf c cs rfl]
  | cons c r1 =>
    have hc : isKeyChar c = true := hrun c (List.mem_cons_self _ _)
    have hno1 : ∀ rest, suf ≠ chQuote :: chColon :: rest := by
      rcases hno with h | h
      · simp at h
      · exact h
    simp only [List.cons_append, reClass, hc, if_true]
    rw [reStar_append r1 suf _
      (fun d cs j hd => by
        have := isKeyChar_not_quote hd
        simp only [isQuoteChar] at this
        simp [reClass, this])
      (fun d hd => hrun d (List.mem_cons_of_mem _ hd)) hsuf]
    cases suf with
    | nil => simp [reClass]
    | cons q s1 =>
      by_cases hq : q = chQuote
      · subst hq
        cases s1 with
        | nil => simp [reClass]
        | cons col s2 =>
          by_cases hcol : col = chColon
          · subst hcol
            exact absurd rfl (hno1 s2)
          · simp [reClass, isColonChar, hcol]
      · simp [reClass, hq]

theorem rewriteLine_of_none (line : Bytes) (h : keyRe.findSubmatchIndex line = []) :
    rewriteLine line = some line := by
  simp [rewriteLine, replaceGroupsRe, h]

theorem split_key_run (k : Bytes) (h : ∃ c ∈ k, isKeyChar c = false) :
    ∃ run d post, k = run ++ d :: post ∧ (∀ c ∈ run, isKeyChar c = true) ∧
      isKeyChar d = false := by
  induction k with
  | nil => simp at h
  | cons c cs ih =>
    by_cases hc : isKeyChar c = true
    · obtain ⟨d, hd, hdk⟩ := h
      have hd1 : d ∈ cs := by
        rcases List.mem_cons.mp hd with rfl | hd
        · rw [hc] at hdk; cases hdk
        · exact hd
      obtain ⟨run, e, post, hcs, hrun, he⟩ := ih ⟨d, hd1, hdk⟩
      refine ⟨c :: run, e, post, by simp [hcs], ?_, he⟩
      intro x hx
      rcases List.mem_cons.mp hx with rfl | hx
      · exact hc
      · exact hrun x hx
    · exact ⟨[], c, cs, rfl, by simp, by simpa using hc⟩

theorem isKeyChar_not_backslash {c : Byte} (h : isKeyChar c = true) :
    (c == chBackslash) = false := by
  simp only [isKeyChar, chBackslash, Bool.or_eq_true, Bool.and_eq_true,
    decide_eq_true_eq, beq_iff_eq] at h ⊢
  simp only [beq_eq_false_iff_ne, ne_eq]
  unfold Byte at *
  omega

theorem unescaped_first (run : Bytes) (d : Byte) (post : Bytes)
    (hrun : ∀ c ∈ run, isKeyChar c = true)
    (h : hasUnescapedQuote (run ++ d :: post) = false) : d ≠ chQuote := by
  induction run with
  | nil =>
    intro hd
    subst hd
    simp [hasUnescapedQuote, scanQuote, chQuote, chBackslash] at h
  | cons c cs ih =>
    have hc : isKeyChar c = true := hrun c (List.mem_cons_self _ _)
    have hq := isKeyChar_not_quote hc
    simp only [isQuoteChar] at hq
    apply ih (fun x hx => hrun x (List.mem_cons_of_mem _ hx))
    simpa [hasUnescapedQuote, scanQuote, isKeyChar_not_backslash hc, hq] using h

/-- No match on a quoted text without unescaped quote that is empty, or holds a
character outside the key class, or is not followed by a colon. -/
theorem keyRe_quoted (pre s after : Bytes) (hpre : ∀ c ∈ pre, isSpaceChar c = true)
    (hs : hasUnescapedQuote s = false)
    (h : s = [] ∨ (∃ c ∈ s, isKeyChar c = false) ∨ ∀ rest, after ≠ chColon :: rest) :
    keyRe.findSubmatchIndex (pre ++ chQuote :: s ++ chQuote :: after) = [] := by
  by_cases hex : ∃ c ∈ s, isKeyChar c = false
  · obtain ⟨run, d, post, hk, hrun, hd⟩ := split_key_run s hex
    subst hk
    have hdq := unescaped_first run d post hrun hs
    have := keyRe_key_run pre run (d :: post ++ chQuote :: after) hpre hrun
      (fun c cs hc => by
        simp only [List.cons_append, List.cons.injEq] at hc
        rw [← hc.1]; exact hd)
      (Or.inr fun rest hr => by
        simp only [List.cons_append, List.cons.injEq] at hr
        exact hdq hr.1)
    simpa using this
  · have hall : ∀ c ∈ s, isKeyChar c = true := by
      intro c hc
      by_contra hn
      exact hex ⟨c, hc, by simpa using hn⟩
    have hno : s = [] ∨ ∀ rest, chQuote :: after ≠ chQuote :: chColon :: rest := by
      rcases h with h | h | h
      · exact Or.inl h
      · exact absurd h hex
      · refine Or.inr fun rest hr => ?_
        simp only [List.cons.injEq, true_and] at hr
        exact h rest hr
    exact keyRe_key_run pre s (chQuote :: after) hpre hall
      (fun c cs hc => by
        simp only [List.cons.injEq] at hc
        rw [← hc.1]; rfl)
      hno

theorem replicate_space (n : Nat) : ∀ c ∈ List.replicate n chSpace, isSpaceChar c = true := by
  intro c hc
  simp [isSpaceChar, List.eq_of_mem_replicate hc]

/-! ## Claims on the line rewrite -/

/-- C1: for every number `n` of leading spaces, every non-empty key `k` over
`[a-zA-Z01]` and every byte sequence `rest`, `replaceGroupsRe` with the key
pattern maps the line `n spaces, quote, k, quote, colon, rest` to
`n spaces, k, colon, rest`: only the two quotes around the key are removed. -/
theorem C1_replaceGroupsRe_unquotes_key (n : Nat) (k rest : Bytes) (hk : k ≠ [])
    (hall : ∀ c ∈ k, isKeyChar c = true) :
    replaceGroupsRe keyRe
        (List.replicate n chSpace ++ [chQuote] ++ k ++ [chQuote] ++ [chColon] ++ rest) =
      some (List.replicate n chSpace ++ k ++ [chColon] ++ rest) := by
  have h := rewriteLine_shape n k rest hk hall
  simpa [rewriteLine] using h

/-- C1 at the line `  "to": 1,`. -/
theorem C1_witness :
    (str "to" ≠ [] ∧ ∀ c ∈ str "to", isKeyChar c = true) ∧
      replaceGroupsRe keyRe
          (List.replicate 2 chSpace ++ [chQuote] ++ str "to" ++ [chQuote] ++ [chColon]
            ++ str " 1,") =
        some (List.replicate 2 chSpace ++ str "to" ++ [chColon] ++ str " 1,") :=
  ⟨⟨by decide, by decide⟩,
    C1_replaceGroupsRe_unquotes_key 2 (str "to") (str " 1,") (by decide) (by decide)⟩

/-- C2, as stated, fails: the line `<tab>"a": 1` matches `^\s*"[a-zA-Z01]+":`,
and the rewrite leaves it as it is, with its quotes. -/
theorem C2_counterexample :
    (∀ c ∈ [9], isWhiteSpace c = true) ∧ str "a" ≠ [] ∧ (∀ c ∈ str "a", isKeyChar c = true) ∧
      rewriteLine ([9] ++ chQuote :: str "a" ++ chQuote :: chColon :: str " 1") ≠
        some ([9] ++ str "a" ++ chColon :: str " 1") ∧
      rewriteLine ([9] ++ chQuote :: str "a" ++ chQuote :: chColon :: str " 1") =
        some ([9] ++ chQuote :: str "a" ++ chQuote :: chColon :: str " 1") := by
  decide

/-- C2, amended: on a line made of leading white space `ws`, a quoted key `k`
over `[a-zA-Z01]`, a colon and `rest`, the rewrite removes the quotes around the
key and keeps every other character when `ws` consists of space characters
only; when `ws` holds another white space character (a tab), the line is
returned unchanged. -/
theorem C2_rewrite_leading_spaces_only (ws k rest : Bytes)
    (hws : ∀ c ∈ ws, isWhiteSpace c = true) (hk : k ≠ [])
    (hall : ∀ c ∈ k, isKeyChar c = true) :
    rewriteLine (ws ++ chQuote :: k ++ chQuote :: chColon :: rest) =
      if ws.all isSpaceChar = true then some (ws ++ k ++ chColon :: rest)
      else some (ws ++ chQuote :: k ++ chQuote :: chColon :: rest) := by
  by_cases hsp : ws.all isSpaceChar = true
  · rw [if_pos hsp]
    have hpre : ∀ c ∈ ws, isSpaceChar c = true := by simpa [List.all_eq_true] using hsp
    rw [all_space_eq_replicate ws hpre]
    exact rewriteLine_shape ws.length k rest hk hall
  · rw [if_neg hsp]
    apply rewriteLine_of_none
    have hex : ∃ c ∈ ws, isSpaceChar c = false := by
      by_contra hn
      apply hsp
      rw [List.all_eq_true]
      intro c hc
      by_contra hc1
      exact hn ⟨c, hc, by simpa using hc1⟩
    obtain ⟨w, hw, hwsp⟩ := hex
    obtain ⟨pre, post, hsplit, hpre⟩ : ∃ pre post, ws = pre ++ post ∧
        (∀ c ∈ pre, isSpaceChar c = true) ∧
        ∃ d tl, post = d :: tl ∧ isSpaceChar d = false ∧ d ∈ ws := by
      clear hws hsp
      induction ws with
      | nil => simp at hw
      | cons c cs ih =>
        by_cases hc : isSpaceChar c = true
        · have hw1 : w ∈ cs := by
            rcases List.mem_cons.mp hw with rfl | hw
            · rw [hc] at hwsp; cases hwsp
            · exact hw
          obtain ⟨pre, post, h1, h2, d, tl, h3, h4, h5⟩ := ih hw1
          refine ⟨c :: pre, post, by simp [h1], ?_, d, tl, h3, h4, List.mem_cons_of_mem _ h5⟩
          intro x hx
          rcases List.mem_cons.mp hx with rfl | hx
          · exact hc
          · exact h2 x hx
        · exact ⟨[], c :: cs, rfl, by simp, c, cs, rfl, by simpa using hc,
            List.mem_cons_self _ _⟩
    obtain ⟨hpre1, d, tl, hpost, hd, hdws⟩ := hpre
    have hdq : isQuoteChar d = false := by
      have := hws d hdws
      simp only [isWhiteSpace, Bool.or_eq_true, beq_iff_eq] at this
      simp only [isQuoteChar, chQuote, beq_eq_false_iff_ne, ne_eq]
      unfold Byte at *
      omega
    have := keyRe_first_not_quote pre (post ++ chQuote :: k ++ chQuote :: chColon :: rest) hpre1
      (fun c cs hc => by
        rw [hpost] at hc
        simp only [List.cons_append, List.cons.injEq] at hc
        rw [← hc.1]; exact ⟨hd, hdq⟩)
    rw [hsplit]
    simpa using this

/-- C2 amended at the lines `  "a": 1` and `<tab>"a": 1`. -/
theorem C2_witness :
    rewriteLine (str "  " ++ chQuote :: str "a" ++ chQuote :: chColon :: str " 1") =
        some (str "  " ++ str "a" ++ chColon :: str " 1") ∧
      rewriteLine ([9] ++ chQuote :: str "a" ++ chQuote :: chColon :: str " 1") =
        some ([9] ++ chQuote :: str "a" ++ chQuote :: chColon :: str " 1") :=
  ⟨C2_rewrite_leading_spaces_only (str "  ") (str "a") (str " 1") (by decide) (by decide)
      (by decide),
    C2_rewrite_leading_spaces_only [9] (str "a") (str " 1") (by decide) (by decide)
      (by decide)⟩

/-- C3: a line that does not match the key pattern is returned unchanged. In
particular the line `spaces, quote, k, quote, colon, rest` is unchanged (and the
key stays quoted) when `k` is empty, or has no unescaped double quote and holds a
character outside `[a-zA-Z01]`; so is a line whose first character after the
indentation is neither a space nor a quote (an array element, a closing brace
or bracket), and a quoted string value that no colon follows. -/
theorem C3_rewrite_unchanged_without_match (line : Bytes) (n : Nat) (k rest : Bytes) :
    (¬ MatchesKeyPattern line → rewriteLine line = some line) ∧
    ((k = [] ∨ (hasUnescapedQuote k = false ∧ ∃ c ∈ k, isKeyChar c = false)) →
      rewriteLine (List.replicate n chSpace ++ chQuote :: k ++ chQuote :: chColon :: rest) =
        some (List.replicate n chSpace ++ chQuote :: k ++ chQuote :: chColon :: rest)) ∧
    (rest.head? ≠ some chSpace ∧ rest.head? ≠ some chQuote →
      rewriteLine (List.replicate n chSpace ++ rest) =
        some (List.replicate n chSpace ++ rest)) ∧
    (hasUnescapedQuote k = false → rest.head? ≠ some chColon →
      rewriteLine (List.replicate n chSpace ++ chQuote :: k ++ chQuote :: rest) =
        some (List.replicate n chSpace ++ chQuote :: k ++ chQuote :: rest)) := by
  refine ⟨rewriteLine_no_match line, ?_, ?_, ?_⟩
  · intro h
    apply rewriteLine_of_none
    rcases h with h | ⟨hq, hex⟩
    · subst h
      exact keyRe_quoted _ [] _ (replicate_space n) (by decide) (Or.inl rfl)
    · exact keyRe_quoted _ k _ (replicate_space n) hq (Or.inr (Or.inl hex))
  · intro h
    apply rewriteLine_of_none
    refine keyRe_first_not_quote _ rest (replicate_space n) ?_
    intro c cs hc
    subst hc
    obtain ⟨h1, h2⟩ := h
    simp only [List.head?_cons, ne_eq, Option.some.injEq] at h1 h2
    exact ⟨by simpa [isSpaceChar] using h1, by simpa [isQuoteChar] using h2⟩
  · intro hq htl
    apply rewriteLine_of_none
    refine keyRe_quoted _ k rest (replicate_space n) hq (Or.inr (Or.inr ?_))
    intro tl hr
    subst hr
    simp at htl

/-- C3 at the lines `}`, `  "b-c": 2`, `  "": 2`, `  17,` and `  "abc",`. -/
theorem C3_witness :
    rewriteLine (str "\x7d") = some (str "\x7d") ∧
    rewriteLine (List.replicate 2 chSpace ++ chQuote :: str "b-c" ++ chQuote :: chColon :: str " 2")
      = some (List.replicate 2 chSpace ++ chQuote :: str "b-c" ++ chQuote :: chColon :: str " 2") ∧
    rewriteLine (List.replicate 2 chSpace ++ chQuote :: [] ++ chQuote :: chColon :: str " 2")
      = some (List.replicate 2 chSpace ++ chQuote :: [] ++ chQuote :: chColon :: str " 2") ∧
    rewriteLine (List.replicate 2 chSpace ++ str "17,")
      = some (List.replicate 2 chSpace ++ str "17,") ∧
    rewriteLine (List.replicate 2 chSpace ++ chQuote :: str "abc" ++ chQuote :: str ",")
      = some (List.replicate 2 chSpace ++ chQuote :: str "abc" ++ chQuote :: str ",") :=
  ⟨(C3_rewrite_unchanged_without_match (str "\x7d") 0 [] []).1
      (by rw [matchesKeyPattern_iff]; decide),
    (C3_rewrite_unchanged_without_match [] 2 (str "b-c") (str " 2")).2.1
      (Or.inr ⟨by decide, by decide⟩),
    (C3_rewrite_unchanged_without_match [] 2 [] (str " 2")).2.1 (Or.inl rfl),
    (C3_rewrite_unchanged_without_match [] 2 [] (str "17,")).2.2.1 (by decide),
    (C3_rewrite_unchanged_without_match [] 2 (str "abc") (str ",")).2.2.2 (by decide)
      (by decide)⟩

/-- C8 fails on the code: the rewrite changes the line `  "0": 1` into `  0: 1`
and the line `  "1a": 1` into `  1a: 1`; the keys left unquoted begin with a
digit and are not identifiers. -/
theorem C8_unquoted_key_not_identifier :
    rewriteLine (str "  \"0\": 1") = some (str "  0: 1") ∧
    isIdentifier (str "0") = false ∧
    rewriteLine (str "  \"1a\": 1") = some (str "  1a: 1") ∧
    isIdentifier (str "1a") = false := by
  decide

/-! ## The buffered writer -/

theorem destWrite_acceptAll (s : Sink) (p : Bytes) :
    Dest.write Dest.acceptAll s p =
      ((p.length, none), { calls := s.calls ++ [p], data := s.data ++ p }) := by
  simp [Dest.write, Dest.acceptAll]

/-- `(*os.File).Write` without error has accepted all of `p`. -/
theorem destWrite_full (d : Dest) (s : Sink) (p : Bytes) (h : (d.write s p).1.2 = none) :
    (d.write s p).1.1 = p.length := by
  unfold Dest.write at h ⊢
  simp only at h ⊢
  cases hr : (d.sysWrite s.calls p).2 with
  | some e => rw [hr] at h; simp at h
  | none =>
    rw [hr] at h
    by_contra hne
    simp [hne] at h

theorem flush_acceptAll (b : BufWriter) (s : Sink) (hb : b.err = none) :
    (BufWriter.flush Dest.acceptAll b s).1 = none ∧
      (BufWriter.flush Dest.acceptAll b s).2.1 = { buf := [], err := none } ∧
      (BufWriter.flush Dest.acceptAll b s).2.2.data = s.data ++ b.buf := by
  obtain ⟨buf, err⟩ := b
  simp only at hb
  subst hb
  by_cases h0 : buf.length = 0
  · have : buf = [] := List.length_eq_zero.mp h0
    subst this
    simp [BufWriter.flush]
  · simp [BufWriter.flush, h0, destWrite_acceptAll]

theorem writeLoop_exit (size : Nat) (d : Dest) (fuel : Nat) (b : BufWriter) (s : Sink)
    (p : Bytes) (nn : Nat) (h : ¬ (p.length > b.available size ∧ b.err = none)) :
    BufWriter.writeLoop size d fuel b s p nn = (b, s, p, nn) := by
  cases fuel with
  | zero => rfl
  | succ f => rw [BufWriter.writeLoop, if_neg h]

theorem flush_buf_of_no_err (d : Dest) (b : BufWriter) (s : Sink)
    (h : (BufWriter.flush d b s).2.1.err = none) : (BufWriter.flush d b s).2.1.buf = [] := by
  obtain ⟨buf, err⟩ := b
  cases err with
  | some e => simp [BufWriter.flush] at h
  | none =>
    by_cases h0 : buf.length = 0
    · simp [BufWriter.flush, h0, List.length_eq_zero.mp h0]
    · unfold BufWriter.flush at h ⊢
      simp only [h0, if_false] at h ⊢
      split at h
      · simp at h
      · rename_i he
        simp only [he]

/-- After at most two rounds the loop of `Write` has nothing left to do. -/
theorem writeLoop_done (size : Nat) (d : Dest) (b : BufWriter) (s : Sink) (p : Bytes)
    (nn : Nat) :
    ¬ ((BufWriter.writeLoop size d 2 b s p nn).2.2.1.length >
          (BufWriter.writeLoop size d 2 b s p nn).1.available size ∧
        (BufWriter.writeLoop size d 2 b s p nn).1.err = none) := by
  have direct : ∀ (b : BufWriter) (s : Sink) (p : Bytes) (nn fuel : Nat),
      p.length > b.available size ∧ b.err = none → b.buf.length = 0 →
      ¬ ((BufWriter.writeLoop size d (fuel + 1) b s p nn).2.2.1.length >
          (BufWriter.writeLoop size d (fuel + 1) b s p nn).1.available size ∧
        (BufWriter.writeLoop size d (fuel + 1) b s p nn).1.err = none) := by
    intro b s p nn fuel hc h0
    rw [BufWriter.writeLoop, if_pos hc, if_pos h0]
    cases he : (d.write s p).1.2 with
    | some e =>
      rw [writeLoop_exit _ _ _ _ _ _ _ (by simp [he])]
      simp [he]
    | none =>
      have hfull := destWrite_full d s p he
      rw [writeLoop_exit _ _ _ _ _ _ _ (by simp [hfull])]
      simp [hfull]
  by_cases hc : p.length > b.available size ∧ b.err = none
  · by_cases h0 : b.buf.length = 0
    · exact direct b s p nn 1 hc h0
    · rw [BufWriter.writeLoop, if_pos hc, if_neg h0]
      simp only
      by_cases hc2 : (p.drop (min (b.available size) p.length)).length >
            (BufWriter.flush d
              { b with buf := b.buf ++ p.take (min (b.available size) p.length) } s).2.1.available
              size ∧
          (BufWriter.flush d
            { b with buf := b.buf ++ p.take (min (b.available size) p.length) } s).2.1.err = none
      · have hfl0 := flush_buf_of_no_err d _ s hc2.2
        exact direct _ _ _ _ 0 hc2 (by rw [hfl0]; rfl)
      · rw [writeLoop_exit _ _ _ _ _ _ _ hc2]
        exact hc2
  · rw [writeLoop_exit _ _ _ _ _ _ _ hc]
    exact hc

theorem writeLoop_acceptAll (size : Nat) (fuel : Nat) (b : BufWriter) (s : Sink) (p : Bytes)
    (nn : Nat) (hb : b.err = none) (hlen : b.buf.length ≤ size) :
    (BufWriter.writeLoop size Dest.acceptAll fuel b s p nn).1.err = none ∧
      (BufWriter.writeLoop size Dest.acceptAll fuel b s p nn).1.buf.length ≤ size ∧
      (BufWriter.writeLoop size Dest.acceptAll fuel b s p nn).2.1.data ++
          (BufWriter.writeLoop size Dest.acceptAll fuel b s p nn).1.buf ++
          (BufWriter.writeLoop size Dest.acceptAll fuel b s p nn).2.2.1 =
        s.data ++ b.buf ++ p := by
  induction fuel generalizing b s p nn with
  | zero => exact ⟨hb, hlen, rfl⟩
  | succ f ih =>
    by_cases hc : p.length > b.available size ∧ b.err = none
    · by_cases h0 : b.buf.length = 0
      · rw [BufWriter.writeLoop, if_pos hc, if_pos h0, destWrite_acceptAll]
        simp only
        obtain ⟨i1, i2, i3⟩ := ih { b with err := none }
          { calls := s.calls ++ [p], data := s.data ++ p } (p.drop p.length) (nn + p.length)
          rfl hlen
        refine ⟨i1, i2, ?_⟩
        rw [i3]
        simp [List.length_eq_zero.mp h0]
      · rw [BufWriter.writeLoop, if_pos hc, if_neg h0]
        simp only
        obtain ⟨f1, f2, f3⟩ := flush_acceptAll
          { b with buf := b.buf ++ p.take (min (b.available size) p.length) } s hb
        rw [f2]
        obtain ⟨i1, i2, i3⟩ := ih { buf := [], err := none }
          (BufWriter.flush Dest.acceptAll
            { b with buf := b.buf ++ p.take (min (b.available size) p.length) } s).2.2
          (p.drop (min (b.available size) p.length)) (nn + min (b.available size) p.length)
          rfl (Nat.zero_le _)
        refine ⟨i1, i2, ?_⟩
        rw [i3, f3]
        simp
    · rw [writeLoop_exit _ _ _ _ _ _ _ hc]
      exact ⟨hb, hlen, by simp⟩

theorem write_acceptAll (size : Nat) (b : BufWriter) (s : Sink) (p : Bytes)
    (hb : b.err = none) (hlen : b.buf.length ≤ size) :
    (BufWriter.write size Dest.acceptAll b s p).1.2 = none ∧
      (BufWriter.write size Dest.acceptAll b s p).2.1.err = none ∧
      (BufWriter.write size Dest.acceptAll b s p).2.1.buf.length ≤ size ∧
      (BufWriter.write size Dest.acceptAll b s p).2.2.data ++
          (BufWriter.write size Dest.acceptAll b s p).2.1.buf = s.data ++ b.buf ++ p := by
  obtain ⟨l1, l2, l3⟩ := writeLoop_acceptAll size 2 b s p 0 hb hlen
  have hd := writeLoop_done size Dest.acceptAll b s p 0
  unfold BufWriter.write
  simp only
  generalize BufWriter.writeLoop size Dest.acceptAll 2 b s p 0 = r at *
  obtain ⟨b1, s1, p1, nn⟩ := r
  obtain ⟨buf1, err1⟩ := b1
  simp only at l1 l2 l3 hd ⊢
  subst l1
  simp only [BufWriter.available, and_true, not_lt, gt_iff_lt] at hd
  simp only [BufWriter.available, Nat.min_eq_right hd, List.take_length, true_and]
  refine ⟨?_, ?_⟩
  · simp; omega
  · rw [← l3]; simp

theorem writeRune_acceptAll (size : Nat) (b : BufWriter) (s : Sink) (c : Byte)
    (hsize : 1 ≤ size) (hb : b.err = none) (hlen : b.buf.length ≤ size) :
    (BufWriter.writeRune size Dest.acceptAll b s c).1.2 = none ∧
      (BufWriter.writeRune size Dest.acceptAll b s c).2.1.err = none ∧
      (BufWriter.writeRune size Dest.acceptAll b s c).2.1.buf.length ≤ size ∧
      (BufWriter.writeRune size Dest.acceptAll b s c).2.2.data ++
          (BufWriter.writeRune size Dest.acceptAll b s c).2.1.buf = s.data ++ b.buf ++ [c] := by
  obtain ⟨f1, f2, f3⟩ := flush_acceptAll b s hb
  obtain ⟨buf, err⟩ := b
  simp only at hb hlen f1 f2 f3
  subst hb
  by_cases ha : size - buf.length ≤ 0
  · simp [BufWriter.writeRune, BufWriter.writeByte, BufWriter.available, ha, f1, f2, f3, hsize]
  · simp only [BufWriter.writeRune, BufWriter.writeByte, BufWriter.available, ha, if_false]
    simp
    omega

/-! ## The line reader -/

theorem indexByte_lt (s : Bytes) (c : Byte) (i : Nat) (h : indexByte s c = some i) :
    i < s.length := by
  unfold indexByte at h
  split at h
  · rename_i hlt
    simp only [Option.some.injEq] at h
    omega
  · cases h

theorem indexByte_not_mem (s : Bytes) (c : Byte) (h : c ∉ s) : indexByte s c = none := by
  unfold indexByte
  rw [if_neg]
  rw [List.indexOf_eq_length.mpr h]
  exact Nat.lt_irrefl _

/-- `ReadLine` reports no error other than `io.EOF`. -/
theorem readLine_err (size : Nat) (rem : Bytes) (e : GoError)
    (h : (readLine size rem).1.err = some e) : e = GoError.eof := by
  unfold readLine at h
  split at h
  · simp at h
  · split at h
    · dsimp only at h
      split at h <;> simp at h
    · split at h
      · simpa using h.symm
      · simp at h

/-- At the end of the text `ReadLine` reports `io.EOF`. -/
theorem readLine_nil (size : Nat) (hsize : 1 ≤ size) :
    (readLine size []).1.err = some GoError.eof := by
  have h1 : ¬ size ≤ 0 := by omega
  simp [readLine, indexByte, h1]

/-- Before the end of the text `ReadLine` returns a line and consumes at least one byte. -/
theorem readLine_progress (size : Nat) (rem : Bytes) (hsize : 2 ≤ size) (hrem : rem ≠ []) :
    (readLine size rem).1.err = none ∧ (readLine size rem).2.length < rem.length := by
  have hpos : 0 < rem.length := List.length_pos.mpr hrem
  unfold readLine
  split
  · rename_i i hi
    have := indexByte_lt _ _ _ hi
    simp only [List.length_take] at this
    refine ⟨rfl, ?_⟩
    simp only [List.length_drop]
    omega
  · split
    · dsimp only
      split
      · refine ⟨rfl, ?_⟩
        simp only [List.length_drop]
        omega
      · refine ⟨rfl, ?_⟩
        simp only [List.length_drop]
        omega
    · split
      · omega
      · exact ⟨rfl, by simpa using hpos⟩

theorem readLine_le (size : Nat) (rem : Bytes) :
    (readLine size rem).2.length ≤ rem.length := by
  unfold readLine
  split
  · simp only [List.length_drop]; omega
  · split
    · dsimp only
      split <;> simp only [List.length_drop] <;> omega
    · split <;> simp

/-! ## The loop of `marshalJsonnet` -/

/-- The rewrite never panics: its slices are always in range. -/
theorem rewriteLine_eq_rewritten (line : Bytes) : rewriteLine line = some (rewritten line) := by
  by_cases hm : MatchesKeyPattern line
  · obtain ⟨n, k, rest, hk, hall, rfl⟩ := hm
    unfold rewritten
    rw [rewriteLine_shape n k rest hk hall]
    rfl
  · unfold rewritten
    rw [rewriteLine_no_match line hm]
    rfl

theorem marshalLoop_err (size : Nat) (d : Dest) (fuel : Nat) (line : Bytes) (e : GoError)
    (rem : Bytes) (b : BufWriter) (s : Sink) :
    marshalLoop size d fuel line (some e) rem b s = marshalExit d (some e) b s := by
  cases fuel <;> rfl

/-- With enough fuel the loop of `marshalJsonnet` ends by itself, whatever the destination. -/
theorem marshalLoop_terminates (size : Nat) (d : Dest) (hsize : 2 ≤ size) (fuel : Nat)
    (line : Bytes) (err : Option GoError) (rem : Bytes) (b : BufWriter) (s : Sink)
    (hfuel : rem.length < fuel) :
    (marshalLoop size d fuel line err rem b s).1 ≠ Ret.outOfFuel := by
  have hexit : ∀ (e : Option GoError) (b : BufWriter) (s : Sink),
      (marshalExit d e b s).1 ≠ Ret.outOfFuel := by
    intro e b s
    unfold marshalExit
    split <;> simp
  induction fuel generalizing line err rem b s with
  | zero => omega
  | succ f ih =>
    cases err with
    | some e => rw [marshalLoop_err]; exact hexit _ _ _
    | none =>
      rw [marshalLoop]
      simp only
      split
      · simp
      · split
        · exact hexit _ _ _
        · split
          · exact hexit _ _ _
          · by_cases hrem : rem = []
            · subst hrem
              rw [readLine_nil size (by omega), marshalLoop_err]
              exact hexit _ _ _
            · apply ih
              have := (readLine_progress size rem hsize hrem).2
              omega

/-- The loop of `marshalJsonnet` on a destination that accepts all writes: it
returns `nil`, and the destination holds what the writer held, then every line
read, rewritten and followed by a newline. -/
theorem marshalLoop_acceptAll (size : Nat) (hsize : 2 ≤ size) (fuel : Nat) (line rem : Bytes)
    (b : BufWriter) (s : Sink) (hb : b.err = none) (hlen : b.buf.length ≤ size)
    (hfuel : rem.length < fuel) :
    (marshalLoop size Dest.acceptAll fuel line none rem b s).1 = Ret.returned none ∧
      (marshalLoop size Dest.acceptAll fuel line none rem b s).2.2.data =
        s.data ++ b.buf ++
          ((line :: readLines size fuel rem).map fun l => rewritten l ++ [chNewline]).flatten := by
  induction fuel generalizing line rem b s with
  | zero => omega
  | succ f ih =>
    rw [marshalLoop]
    simp only
    have hrw : replaceGroupsRe keyRe line = some (rewritten line) :=
      rewriteLine_eq_rewritten line
    rw [hrw]
    simp only
    obtain ⟨w1, w2, w3, w4⟩ := write_acceptAll size b s (rewritten line) hb hlen
    rw [w1]
    simp only
    obtain ⟨r1, r2, r3, r4⟩ := writeRune_acceptAll size
      (BufWriter.write size Dest.acceptAll b s (rewritten line)).2.1
      (BufWriter.write size Dest.acceptAll b s (rewritten line)).2.2 chNewline
      (by omega) w2 w3
    rw [r1]
    simp only
    by_cases hrem : rem = []
    · subst hrem
      rw [readLine_nil size (by omega), marshalLoop_err]
      obtain ⟨f1, f2, f3⟩ := flush_acceptAll _
        (BufWriter.writeRune size Dest.acceptAll
          (BufWriter.write size Dest.acceptAll b s (rewritten line)).2.1
          (BufWriter.write size Dest.acceptAll b s (rewritten line)).2.2 chNewline).2.2 r2
      simp only [marshalExit, if_true, f1, f3, r4, w4, true_and]
      simp [readLines, readLine_nil size (by omega : 1 ≤ size)]
    · obtain ⟨p1, p2⟩ := readLine_progress size rem hsize hrem
      rw [p1]
      obtain ⟨i1, i2⟩ := ih (readLine size rem).1.line (readLine size rem).2 _ _ r2 r3
        (by omega)
      refine ⟨i1, ?_⟩
      rw [i2, r4, w4]
      simp [readLines, p1]

/-- The serializer on a destination that accepts all writes: it returns `nil`
and appends to the destination every line read from the encoded text,
rewritten and followed by a newline. -/
theorem marshalJsonnet_acceptAll {V : Type} (enc : V → Except GoError Bytes) (v : V)
    (text : Bytes) (w : World) (henc : enc v = Except.ok text) :
    (marshalJsonnet enc v Dest.acceptAll w).1 = Ret.returned none ∧
      (marshalJsonnet enc v Dest.acceptAll w).2.sink.data =
        w.sink.data ++
          ((readLines defaultBufSize (text.length + 2) text).map
            fun l => rewritten l ++ [chNewline]).flatten ∧
      (marshalJsonnet enc v Dest.acceptAll w).2.trace = w.trace ++ [Event.marshalIndent] := by
  unfold marshalJsonnet
  simp only [henc]
  refine ⟨?_, ?_, rfl⟩
  · by_cases htext : text = []
    · subst htext
      rw [readLine_nil defaultBufSize (by decide), marshalLoop_err]
      simp [marshalExit, BufWriter.flush]
    · obtain ⟨p1, _⟩ := readLine_progress defaultBufSize text (by decide) htext
      rw [p1]
      exact (marshalLoop_acceptAll defaultBufSize (by decide) _ _ _ _ _ rfl (Nat.zero_le _)
        (Nat.lt_succ_of_le (readLine_le _ _))).1
  · by_cases htext : text = []
    · subst htext
      rw [readLine_nil defaultBufSize (by decide), marshalLoop_err]
      simp [marshalExit, BufWriter.flush, readLines, readLine_nil defaultBufSize (by decide),
        World.log]
    · obtain ⟨p1, _⟩ := readLine_progress defaultBufSize text (by decide) htext
      rw [p1]
      rw [(marshalLoop_acceptAll defaultBufSize (by decide) _ _ _ _ _ rfl (Nat.zero_le _)
        (Nat.lt_succ_of_le (readLine_le _ _))).2]
      simp [readLines, p1, World.log]

/-- The serializer never exhausts the bound on its iterations. -/
theorem marshalJsonnet_terminates {V : Type} (enc : V → Except GoError Bytes) (v : V)
    (d : Dest) (w : World) : (marshalJsonnet enc v d w).1 ≠ Ret.outOfFuel := by
  unfold marshalJsonnet
  simp only
  split
  · simp
  · exact marshalLoop_terminates defaultBufSize d (by decide) _ _ _ _ _ _
      (Nat.lt_succ_of_le (readLine_le _ _))

theorem acceptsAll_eq (d : Dest) (h : d.AcceptsAll) : d = Dest.acceptAll := by
  obtain ⟨f⟩ := d
  simp only [Dest.acceptAll, Dest.mk.injEq]
  funext hist p
  exact h hist p

/-! ## Long lines -/

/-- A line that fills the buffer without a newline is returned as a prefix. -/
theorem readLine_full (size : Nat) (pre post : Bytes) (hsize : pre.length = size)
    (hnl : chNewline ∉ pre) (hcr : pre.getLast? ≠ some chCR) :
    readLine size (pre ++ post) = ({ line := pre, isPrefix := true, err := none }, post) := by
  have htake : (pre ++ post).take size = pre := List.take_left' hsize
  have hdrop : (pre ++ post).drop size = post := List.drop_left' hsize
  have hlast : pre.get? (pre.length - 1) ≠ some chCR := by
    rw [List.get?_eq_getElem?, ← List.getLast?_eq_getElem?]
    exact hcr
  unfold readLine
  rw [htake, indexByte_not_mem pre chNewline hnl]
  simp only
  rw [if_pos (by simp; omega), if_neg (fun h => hlast h.2), hdrop]

/-- The bytes left at the end of the text, without a newline, are the last line. -/
theorem readLine_last (size : Nat) (rem : Bytes) (hlen : rem.length < size) (hne : rem ≠ [])
    (hnl : chNewline ∉ rem) :
    readLine size rem = ({ line := rem, isPrefix := false, err := none }, []) := by
  have htake : rem.take size = rem := List.take_of_length_le (by omega)
  have hpos : 0 < rem.length := List.length_pos.mpr hne
  unfold readLine
  rw [htake, indexByte_not_mem rem chNewline hnl]
  simp only
  rw [if_neg (by omega), if_neg (by omega : ¬ rem.length = 0)]

/-- A text on one line that is longer than the buffer is read in two pieces. -/
theorem readLines_long (size fuel : Nat) (pre post : Bytes) (hsize : pre.length = size)
    (h2 : 2 ≤ size) (hnl : chNewline ∉ pre) (hcr : pre.getLast? ≠ some chCR)
    (hlen : post.length < size) (hne : post ≠ []) (hnl2 : chNewline ∉ post) :
    readLines size (fuel + 3) (pre ++ post) = [pre, post] := by
  simp [readLines, readLine_full size pre post hsize hnl hcr,
    readLine_last size post hlen hne hnl2, readLine_nil size (by omega : 1 ≤ size)]

theorem splitLines_one (t : Bytes) (h : chNewline ∉ t) : splitLines t = [t] := by
  induction t with
  | nil => rfl
  | cons c cs ih =>
    have hc : c ≠ chNewline := fun hc => h (by simp [hc])
    have hcs : chNewline ∉ cs := fun hm => h (List.mem_cons_of_mem _ hm)
    simp [splitLines, hc, ih hcs]

theorem rewritten_of_none (line : Bytes) (h : keyRe.findSubmatchIndex line = []) :
    rewritten line = line := by
  simp [rewritten, rewriteLine_of_none line h]

theorem letters_a (m : Nat) : ∀ c ∈ List.replicate m (97 : Byte), isKeyChar c = true := by
  intro c hc
  rw [List.eq_of_mem_replicate hc]
  rfl

/-- A quoted run of `m` letters `a`, one byte shorter than the buffer, followed
by its closing quote: the serializer writes the run, a newline, the quote and a
newline, and not the line followed by a newline. -/
theorem long_line_split (m : Nat) (hm : m + 1 = defaultBufSize) :
    (marshalJsonnet (fun _ : Unit => Except.ok (chQuote :: List.replicate m 97 ++ [chQuote])) ()
        Dest.acceptAll World.init).1 = Ret.returned none ∧
    (marshalJsonnet (fun _ : Unit => Except.ok (chQuote :: List.replicate m 97 ++ [chQuote])) ()
        Dest.acceptAll World.init).2.sink.data =
      (chQuote :: List.replicate m 97) ++ [chNewline] ++ [chQuote] ++ [chNewline] ∧
    expectedOutput (chQuote :: List.replicate m 97 ++ [chQuote]) =
      (chQuote :: List.replicate m 97 ++ [chQuote]) ++ [chNewline] ∧
    (marshalJsonnet (fun _ : Unit => Except.ok (chQuote :: List.replicate m 97 ++ [chQuote])) ()
        Dest.acceptAll World.init).2.sink.data ≠
      expectedOutput (chQuote :: List.replicate m 97 ++ [chQuote]) := by
  obtain ⟨h1, h2, _⟩ := marshalJsonnet_acceptAll
    (fun _ : Unit => Except.ok (chQuote :: List.replicate m 97 ++ [chQuote])) ()
    (chQuote :: List.replicate m 97 ++ [chQuote]) World.init rfl
  have hmpos : m = (m - 1) + 1 := by
    have : defaultBufSize = 4096 := rfl
    omega
  have hnl : chNewline ∉ (chQuote :: List.replicate m (97 : Byte)) := by
    intro hmem
    rcases List.mem_cons.mp hmem with h | h
    · exact absurd h (by decide)
    · exact absurd (List.eq_of_mem_replicate h) (by decide)
  have hcr : (chQuote :: List.replicate m (97 : Byte)).getLast? ≠ some chCR := by
    have : (chQuote :: List.replicate m (97 : Byte)) =
        (chQuote :: List.replicate (m - 1) (97 : Byte)) ++ [97] := by
      rw [List.cons_append, ← List.replicate_succ', ← hmpos]
    rw [this, List.getLast?_append]
    simp [chCR]
  have hlines : readLines defaultBufSize
      ((chQuote :: List.replicate m 97 ++ [chQuote]).length + 2)
      (chQuote :: List.replicate m 97 ++ [chQuote]) =
      [chQuote :: List.replicate m 97, [chQuote]] := by
    have hl : (chQuote :: List.replicate m (97 : Byte) ++ [chQuote]).length + 2 = m + 1 + 3 := by
      simp
    rw [hl]
    exact readLines_long defaultBufSize (m + 1) (chQuote :: List.replicate m 97) [chQuote]
      (by simp [hm]) (by decide) hnl hcr (by decide) (by decide) (by decide)
  have hr1 : rewritten (chQuote :: List.replicate m 97) = chQuote :: List.replicate m 97 :=
    rewritten_of_none _ (by
      have := keyRe_key_run [] (List.replicate m 97) [] (by simp) (letters_a m)
        (by simp) (Or.inr (by simp))
      simpa using this)
  have hr2 : rewritten [chQuote] = [chQuote] := by decide
  have hdata : (marshalJsonnet
      (fun _ : Unit => Except.ok (chQuote :: List.replicate m 97 ++ [chQuote])) ()
      Dest.acceptAll World.init).2.sink.data =
      (chQuote :: List.replicate m 97) ++ [chNewline] ++ [chQuote] ++ [chNewline] := by
    rw [h2, hlines]
    simp [hr1, hr2, World.init]
  have hnl2 : chNewline ∉ (chQuote :: List.replicate m (97 : Byte) ++ [chQuote]) := by
    intro hmem
    rcases List.mem_append.mp hmem with h | h
    · exact hnl h
    · exact absurd (List.mem_singleton.mp h) (by decide)
  have hr3 : rewritten (chQuote :: List.replicate m 97 ++ [chQuote]) =
      chQuote :: List.replicate m 97 ++ [chQuote] :=
    rewritten_of_none _ (by
      have := keyRe_key_run [] (List.replicate m 97) [chQuote] (by simp) (letters_a m)
        (by
          intro c cs hc
          simp only [List.cons.injEq] at hc
          rw [← hc.1]; rfl)
        (Or.inr (by simp))
      simpa using this)
  have hexp : expectedOutput (chQuote :: List.replicate m 97 ++ [chQuote]) =
      (chQuote :: List.replicate m 97 ++ [chQuote]) ++ [chNewline] := by
    unfold expectedOutput
    rw [splitLines_one _ hnl2]
    simp only [List.map_cons, List.map_nil, List.flatten_cons, List.flatten_nil,
      List.append_nil, hr3]
  refine ⟨h1, hdata, hexp, ?_⟩
  rw [hdata, hexp]
  intro h
  have := congrArg List.length h
  simp at this

/-! ## Claims on the serializer -/

/-- C4 fails on the code: the canonical JSON text of a string of 4095 letters
`a` is one line of 4097 bytes; the serializer, on a destination that accepts
all writes, returns `nil` and writes the first 4096 bytes, a newline, the
closing quote and a newline. The line is split in two, where the claim has the
whole line followed by a single newline. -/
theorem C4_long_line_is_split :
    (marshalJsonnet (fun _ : Unit => Except.ok longStringText) () Dest.acceptAll
        World.init).1 = Ret.returned none ∧
    (marshalJsonnet (fun _ : Unit => Except.ok longStringText) () Dest.acceptAll
        World.init).2.sink.data =
      (chQuote :: List.replicate 4095 97) ++ [chNewline] ++ [chQuote] ++ [chNewline] ∧
    expectedOutput longStringText = longStringText ++ [chNewline] ∧
    (marshalJsonnet (fun _ : Unit => Except.ok longStringText) () Dest.acceptAll
        World.init).2.sink.data ≠ expectedOutput longStringText := by
  unfold longStringText
  exact long_line_split 4095 rfl

/-- C7 fails on the code: the canonical JSON text of the map `{"0": 1}` is
serialized to the lines `{`, `  0: 1`, `}`; the member name left unquoted is
`0`, which is not an identifier, so the text is not JSON extended with unquoted
identifier keys. -/
theorem C7_digit_key_output :
    marshalJsonnet (fun _ : Unit => Except.ok (str "\x7b\n  \"0\": 1\n\x7d")) ()
        Dest.acceptAll World.init =
      (Ret.returned none,
        { trace := [Event.marshalIndent],
          sink := { calls := [str "\x7b\n  0: 1\n\x7d\n"], data := str "\x7b\n  0: 1\n\x7d\n" } }) ∧
    isIdentifier (str "0") = false := by
  decide

/-- C9: when the encoder returns the text `{\n  "a": 1,\n  "b-c": 2\n}` and the
destination accepts all writes, the serializer returns `nil` and writes the
four lines `{`, `  a: 1,`, `  "b-c": 2`, `}`, each followed by one newline. -/
theorem C9_scenario_simple_and_hyphen_key {V : Type} (enc : V → Except GoError Bytes) (v : V)
    (d : Dest) (henc : enc v = Except.ok (str "\x7b\n  \"a\": 1,\n  \"b-c\": 2\n\x7d"))
    (hd : d.AcceptsAll) :
    (marshalJsonnet enc v d World.init).1 = Ret.returned none ∧
    (marshalJsonnet enc v d World.init).2.sink.data =
      ([str "\x7b", str "  a: 1,", str "  \"b-c\": 2", str "\x7d"].map
        fun l => l ++ [chNewline]).flatten := by
  rw [acceptsAll_eq d hd]
  simp only [marshalJsonnet, henc]
  decide

/-- C9 with the encoder that returns the text of the scenario and the
destination that accepts every write. -/
theorem C9_witness :
    (marshalJsonnet (fun _ : Unit => Except.ok (str "\x7b\n  \"a\": 1,\n  \"b-c\": 2\n\x7d")) ()
        Dest.acceptAll World.init).1 = Ret.returned none ∧
    (marshalJsonnet (fun _ : Unit => Except.ok (str "\x7b\n  \"a\": 1,\n  \"b-c\": 2\n\x7d")) ()
        Dest.acceptAll World.init).2.sink.data =
      ([str "\x7b", str "  a: 1,", str "  \"b-c\": 2", str "\x7d"].map
        fun l => l ++ [chNewline]).flatten :=
  C9_scenario_simple_and_hyphen_key
    (fun _ : Unit => Except.ok (str "\x7b\n  \"a\": 1,\n  \"b-c\": 2\n\x7d")) () Dest.acceptAll rfl
    (fun _ _ => rfl)

/-! ## Claims on the orchestrator -/

/-- C5 fails on the code: with the output path `/nonexistent/out.jsonnet` and an
`os.OpenFile` that fails, `doImport` returns `nil`: it wraps the result
variable `err`, still `nil`, and not the error `e` of the open, and
`errors.Wrap(nil, ...)` is `nil`. -/
theorem C5_open_failure_returns_nil :
    doImport (sampleEnv (some (GoError.other "open: no such file or directory")) none
        (str "\x7b\x7d")) "/nonexistent/out.jsonnet" =
      (Ret.returned none,
        { trace := [Event.openFile "/nonexistent/out.jsonnet"],
          sink := { calls := [], data := [] } }) := by
  decide

/-- C6: for a file path whose open succeeded: when the pipeline body returns no
error, `doImport` returns the result of closing the file (the close error when
closing fails, `nil` when it succeeds); when the body returns an error `e`,
`doImport` returns `e`, whatever the outcome of the close. -/
theorem C6_close_error_shadowing {Api Upstream Config : Type} (env : Env Api Upstream Config)
    (path : String) (hpath : path ≠ "") (hopen : env.openFile path = none) :
    ((importWithOut env env.file (World.init.log (Event.openFile path))).1 = Ret.returned none →
      ∀ ce, env.closeFile = some ce → (doImport env path).1 = Ret.returned (some ce)) ∧
    (∀ e, (importWithOut env env.file (World.init.log (Event.openFile path))).1 =
        Ret.returned (some e) → (doImport env path).1 = Ret.returned (some e)) ∧
    ((importWithOut env env.file (World.init.log (Event.openFile path))).1 = Ret.returned none →
      env.closeFile = none → (doImport env path).1 = Ret.returned none) := by
  unfold doImport
  simp only [hpath, if_false, hopen]
  refine ⟨?_, ?_, ?_⟩
  · intro hbody ce hce
    rw [hbody]
    simp [hce]
  · intro e hbody
    rw [hbody]
    simp
  · intro hbody hce
    rw [hbody]
    simp [hce]

/-- C6 on three runs: the body succeeds and the close fails; the fetch fails
and the close fails too; the body and the close both succeed. -/
theorem C6_witness :
    (doImport (sampleEnv none (some (GoError.other "close")) (str "\x7b\x7d")) "out").1 =
        Ret.returned (some (GoError.other "close")) ∧
    (doImport (fetchFailEnv (some (GoError.other "close")) (GoError.other "fetch")) "out").1 =
        Ret.returned (some (GoError.other "fetch")) ∧
    (doImport (sampleEnv none none (str "\x7b\x7d")) "out").1 = Ret.returned none :=
  ⟨(C6_close_error_shadowing (sampleEnv none (some (GoError.other "close")) (str "\x7b\x7d"))
      "out" (by decide) rfl).1 (by decide) (GoError.other "close") rfl,
    (C6_close_error_shadowing (fetchFailEnv (some (GoError.other "close"))
      (GoError.other "fetch")) "out" (by decide) rfl).2.1 (GoError.other "fetch") (by decide),
    (C6_close_error_shadowing (sampleEnv none none (str "\x7b\x7d")) "out" (by decide)
      rfl).2.2 (by decide) rfl⟩

/-- C10: for a non-empty output path whose open fails, the only call `doImport`
makes is the one to `os.OpenFile`: no connection, fetch, conversion or encoding
is attempted, the file is not closed, and nothing is written. -/
theorem C10_open_failure_stops_pipeline {Api Upstream Config : Type}
    (env : Env Api Upstream Config) (path : String) (e : GoError) (hpath : path ≠ "")
    (hopen : env.openFile path = some e) :
    (doImport env path).2.trace = [Event.openFile path] ∧
    Event.openAPI ∉ (doImport env path).2.trace ∧
    Event.upstreamFilters ∉ (doImport env path).2.trace ∧
    Event.rimportImport ∉ (doImport env path).2.trace ∧
    Event.marshalIndent ∉ (doImport env path).2.trace ∧
    (doImport env path).2.sink = { calls := [], data := [] } := by
  unfold doImport
  simp only [hpath, if_false, hopen]
  simp [World.log, World.init]

/-- C10 on a run whose `os.OpenFile` fails. -/
theorem C10_witness :
    (doImport (sampleEnv (some (GoError.other "open")) none (str "\x7b\x7d")) "out").2.trace =
        [Event.openFile "out"] ∧
    Event.openAPI ∉
      (doImport (sampleEnv (some (GoError.other "open")) none (str "\x7b\x7d")) "out").2.trace ∧
    Event.upstreamFilters ∉
      (doImport (sampleEnv (some (GoError.other "open")) none (str "\x7b\x7d")) "out").2.trace ∧
    Event.rimportImport ∉
      (doImport (sampleEnv (some (GoError.other "open")) none (str "\x7b\x7d")) "out").2.trace ∧
    Event.marshalIndent ∉
      (doImport (sampleEnv (some (GoError.other "open")) none (str "\x7b\x7d")) "out").2.trace ∧
    (doImport (sampleEnv (some (GoError.other "open")) none (str "\x7b\x7d")) "out").2.sink =
      { calls := [], data := [] } :=
  C10_open_failure_stops_pipeline
    (sampleEnv (some (GoError.other "open")) none (str "\x7b\x7d")) "out" (GoError.other "open")
    (by decide) rfl

/-! ## Claims on the pipeline -/

/-- The calls of the serializer: the encoder, once. -/
theorem marshalJsonnet_trace {V : Type} (enc : V → Except GoError Bytes) (v : V) (d : Dest)
    (w : World) : (marshalJsonnet enc v d w).2.trace = w.trace ++ [Event.marshalIndent] := by
  unfold marshalJsonnet
  simp only
  split <;> rfl

/-- C11: when `openAPI` fails with `e`, `importWithOut` returns the non-nil
configuration error that wraps `e` with the message "cannot connect to Gmail";
the only call made is the one to `openAPI` (no fetch, no conversion, no
encoding) and the output sink is left as it was. -/
theorem C11_connection_failure {Api Upstream Config : Type} (env : Env Api Upstream Config)
    (out : Dest) (w : World) (e : GoError) (h : env.openAPI = Except.error e) :
    (importWithOut env out w).1 =
        Ret.returned (configurationError (errorsWrap (some e) "cannot connect to Gmail")) ∧
    (importWithOut env out w).1 =
        Ret.returned (some (GoError.configuration (GoError.wrapped e "cannot connect to Gmail"))) ∧
    (importWithOut env out w).2.trace = w.trace ++ [Event.openAPI] ∧
    (importWithOut env out w).2.sink = w.sink := by
  simp [importWithOut, h, World.log, configurationError, errorsWrap]

/-- C11 on a run whose connection fails. -/
theorem C11_witness :
    (importWithOut
        (pipelineEnv (Except.error (GoError.other "dial tcp: timeout")) (Except.ok ())
          (Except.ok ()) (Except.ok (str "\x7b\x7d")) Dest.acceptAll none)
        Dest.acceptAll World.init).1 =
      Ret.returned (some (GoError.configuration
        (GoError.wrapped (GoError.other "dial tcp: timeout") "cannot connect to Gmail"))) ∧
    (importWithOut
        (pipelineEnv (Except.error (GoError.other "dial tcp: timeout")) (Except.ok ())
          (Except.ok ()) (Except.ok (str "\x7b\x7d")) Dest.acceptAll none)
        Dest.acceptAll World.init).2 =
      { trace := [Event.openAPI], sink := { calls := [], data := [] } } :=
  ⟨(C11_connection_failure
      (pipelineEnv (Except.error (GoError.other "dial tcp: timeout")) (Except.ok ())
        (Except.ok ()) (Except.ok (str "\x7b\x7d")) Dest.acceptAll none)
      Dest.acceptAll World.init (GoError.other "dial tcp: timeout") rfl).2.1,
    by decide⟩

/-- C12: when the connection succeeds and the fetch fails with `e`,
`importWithOut` returns exactly `e` after the calls `openAPI` and
`upstreamFilters` only; when the fetch succeeds and the conversion fails with
`e`, it returns exactly `e` after `openAPI`, `upstreamFilters` and
`rimport.Import` only. In both cases the sink is left as it was. -/
theorem C12_first_failure_stops {Api Upstream Config : Type} (env : Env Api Upstream Config)
    (out : Dest) (w : World) (a : Api) (e : GoError) (hapi : env.openAPI = Except.ok a) :
    (env.upstreamFilters a = Except.error e →
      (importWithOut env out w).1 = Ret.returned (some e) ∧
      (importWithOut env out w).2.trace =
        w.trace ++ [Event.openAPI, Event.upstreamFilters] ∧
      (importWithOut env out w).2.sink = w.sink) ∧
    (∀ u, env.upstreamFilters a = Except.ok u → env.rimportImport u = Except.error e →
      (importWithOut env out w).1 = Ret.returned (some e) ∧
      (importWithOut env out w).2.trace =
        w.trace ++ [Event.openAPI, Event.upstreamFilters, Event.rimportImport] ∧
      (importWithOut env out w).2.sink = w.sink) := by
  refine ⟨?_, ?_⟩
  · intro hf
    simp [importWithOut, hapi, hf, World.log]
  · intro u hf hc
    simp [importWithOut, hapi, hf, hc, World.log]

/-- C12 on a run whose fetch fails and on a run whose conversion fails. -/
theorem C12_witness :
    (importWithOut
        (pipelineEnv (Except.ok ()) (Except.error (GoError.other "fetch")) (Except.ok ())
          (Except.ok (str "\x7b\x7d")) Dest.acceptAll none)
        Dest.acceptAll World.init).1 = Ret.returned (some (GoError.other "fetch")) ∧
    (importWithOut
        (pipelineEnv (Except.ok ()) (Except.ok ()) (Except.error (GoError.other "convert"))
          (Except.ok (str "\x7b\x7d")) Dest.acceptAll none)
        Dest.acceptAll World.init).2.sink = World.init.sink :=
  ⟨((C12_first_failure_stops
      (pipelineEnv (Except.ok ()) (Except.error (GoError.other "fetch")) (Except.ok ())
        (Except.ok (str "\x7b\x7d")) Dest.acceptAll none)
      Dest.acceptAll World.init () (GoError.other "fetch") rfl).1 rfl).1,
    ((C12_first_failure_stops
      (pipelineEnv (Except.ok ()) (Except.ok ()) (Except.error (GoError.other "convert"))
        (Except.ok (str "\x7b\x7d")) Dest.acceptAll none)
      Dest.acceptAll World.init () (GoError.other "convert") rfl).2 () rfl rfl).2.2⟩

/-- The result of `importWithOut` once the serializer is reached: an error of
the serializer is wrapped, anything else is passed on. -/
theorem importWithOut_serialize {Api Upstream Config : Type} (env : Env Api Upstream Config)
    (out : Dest) (w : World) (a : Api) (u : Upstream) (c : Config)
    (hapi : env.openAPI = Except.ok a) (hf : env.upstreamFilters a = Except.ok u)
    (hc : env.rimportImport u = Except.ok c) :
    (importWithOut env out w).2 =
        (marshalJsonnet env.marshalIndent c out
          (((w.log Event.openAPI).log Event.upstreamFilters).log Event.rimportImport)).2 ∧
    (importWithOut env out w).1 =
      match (marshalJsonnet env.marshalIndent c out
          (((w.log Event.openAPI).log Event.upstreamFilters).log Event.rimportImport)).1 with
      | Ret.returned (some e) => Ret.returned (some (GoError.wrapped e "error converting to Jsonnet"))
      | r => r := by
  unfold importWithOut
  simp only [hapi, hf, hc]
  generalize marshalJsonnet env.marshalIndent c out
    (((w.log Event.openAPI).log Event.upstreamFilters).log Event.rimportImport) = res
  obtain ⟨r, w4⟩ := res
  cases r with
  | returned err =>
    cases err with
    | none => exact ⟨rfl, rfl⟩
    | some e => exact ⟨rfl, rfl⟩
  | panicked => exact ⟨rfl, rfl⟩
  | outOfFuel => exact ⟨rfl, rfl⟩

/-- C13, as stated, fails: a fetch error comes back from `importWithOut` as it
is, without any message around it. -/
theorem C13_counterexample :
    (importWithOut
        (pipelineEnv (Except.ok ()) (Except.error (GoError.other "fetch failed")) (Except.ok ())
          (Except.ok (str "\x7b\x7d")) Dest.acceptAll none)
        Dest.acceptAll World.init).1 = Ret.returned (some (GoError.other "fetch failed")) ∧
    ∀ msg : String, GoError.other "fetch failed" ≠
      GoError.wrapped (GoError.other "fetch failed") msg := by
  refine ⟨by decide, ?_⟩
  intro msg h
  cases h

/-- C13, amended: `importWithOut` wraps the error of the connection with the
message "cannot connect to Gmail" (and marks it as a configuration error) and
the error of the serializer with "error converting to Jsonnet"; it returns the
errors of the fetch and of the conversion unchanged. `doImport` passes the
error of `importWithOut` on as it is, for standard output and for a file that
was opened. -/
theorem C13_error_wrapping_by_stage {Api Upstream Config : Type}
    (env : Env Api Upstream Config) (out : Dest) (w : World) (e : GoError) :
    (env.openAPI = Except.error e →
      (importWithOut env out w).1 =
        Ret.returned (configurationError (errorsWrap (some e) "cannot connect to Gmail"))) ∧
    (∀ a, env.openAPI = Except.ok a → env.upstreamFilters a = Except.error e →
      (importWithOut env out w).1 = Ret.returned (some e)) ∧
    (∀ a u, env.openAPI = Except.ok a → env.upstreamFilters a = Except.ok u →
      env.rimportImport u = Except.error e →
      (importWithOut env out w).1 = Ret.returned (some e)) ∧
    (∀ a u c, env.openAPI = Except.ok a → env.upstreamFilters a = Except.ok u →
      env.rimportImport u = Except.ok c →
      (marshalJsonnet env.marshalIndent c out
        (((w.log Event.openAPI).log Event.upstreamFilters).log Event.rimportImport)).1 =
          Ret.returned (some e) →
      (importWithOut env out w).1 =
        Ret.returned (some (GoError.wrapped e "error converting to Jsonnet"))) ∧
    doImport env "" = importWithOut env env.stdout World.init ∧
    (∀ path, path ≠ "" → env.openFile path = none →
      (importWithOut env env.file (World.init.log (Event.openFile path))).1 =
          Ret.returned (some e) →
      (doImport env path).1 = Ret.returned (some e)) := by
  refine ⟨?_, ?_, ?_, ?_, ?_, ?_⟩
  · intro h
    simp [importWithOut, h]
  · intro a hapi hf
    simp [importWithOut, hapi, hf]
  · intro a u hapi hf hc
    simp [importWithOut, hapi, hf, hc]
  · intro a u c hapi hf hc hm
    rw [(importWithOut_serialize env out w a u c hapi hf hc).2, hm]
  · simp [doImport]
  · intro path hpath hopen hbody
    unfold doImport
    simp only [hpath, if_false, hopen]
    rw [hbody]
    simp

/-- C13 amended on a failing connection, a failing fetch and a failing encoder. -/
theorem C13_witness :
    (importWithOut
        (pipelineEnv (Except.error (GoError.other "dial")) (Except.ok ()) (Except.ok ())
          (Except.ok (str "\x7b\x7d")) Dest.acceptAll none)
        Dest.acceptAll World.init).1 =
      Ret.returned (configurationError
        (errorsWrap (some (GoError.other "dial")) "cannot connect to Gmail")) ∧
    (importWithOut
        (pipelineEnv (Except.ok ()) (Except.error (GoError.other "fetch")) (Except.ok ())
          (Except.ok (str "\x7b\x7d")) Dest.acceptAll none)
        Dest.acceptAll World.init).1 = Ret.returned (some (GoError.other "fetch")) ∧
    (importWithOut
        (pipelineEnv (Except.ok ()) (Except.ok ()) (Except.ok ())
          (Except.error (GoError.other "json: unsupported value")) Dest.acceptAll none)
        Dest.acceptAll World.init).1 =
      Ret.returned (some (GoError.wrapped (GoError.other "json: unsupported value")
        "error converting to Jsonnet")) :=
  ⟨(C13_error_wrapping_by_stage
      (pipelineEnv (Except.error (GoError.other "dial")) (Except.ok ()) (Except.ok ())
        (Except.ok (str "\x7b\x7d")) Dest.acceptAll none)
      Dest.acceptAll World.init (GoError.other "dial")).1 rfl,
    (C13_error_wrapping_by_stage
      (pipelineEnv (Except.ok ()) (Except.error (GoError.other "fetch")) (Except.ok ())
        (Except.ok (str "\x7b\x7d")) Dest.acceptAll none)
      Dest.acceptAll World.init (GoError.other "fetch")).2.1 () rfl rfl,
    (C13_error_wrapping_by_stage
      (pipelineEnv (Except.ok ()) (Except.ok ()) (Except.ok ())
        (Except.error (GoError.other "json: unsupported value")) Dest.acceptAll none)
      Dest.acceptAll World.init (GoError.other "json: unsupported value")).2.2.2.1 () () ()
      rfl rfl rfl (by decide)⟩

/-- The calls `importWithOut` adds to the trace do not include a close of the file. -/
theorem importWithOut_trace {Api Upstream Config : Type} (env : Env Api Upstream Config)
    (out : Dest) (w : World) :
    ∃ l, (importWithOut env out w).2.trace = w.trace ++ l ∧ Event.closeFile ∉ l := by
  cases hapi : env.openAPI with
  | error e => exact ⟨[Event.openAPI], by simp [importWithOut, hapi, World.log], by decide⟩
  | ok a =>
    cases hf : env.upstreamFilters a with
    | error e =>
      exact ⟨[Event.openAPI, Event.upstreamFilters],
        by simp [importWithOut, hapi, hf, World.log], by decide⟩
    | ok u =>
      cases hc : env.rimportImport u with
      | error e =>
        exact ⟨[Event.openAPI, Event.upstreamFilters, Event.rimportImport],
          by simp [importWithOut, hapi, hf, hc, World.log], by decide⟩
      | ok c =>
        refine ⟨[Event.openAPI, Event.upstreamFilters, Event.rimportImport,
          Event.marshalIndent], ?_, by decide⟩
        rw [(importWithOut_serialize env out w a u c hapi hf hc).1, marshalJsonnet_trace]
        simp [World.log]

/-- C14: for a file path whose open succeeded, whatever the connection, the
fetch, the conversion, the encoder, the destination and the close do, the trace
of `doImport` holds exactly one close of the file, and it is the last call
made: the file is closed once before `doImport` returns, on every exit path. -/
theorem C14_file_closed_once {Api Upstream Config : Type} (env : Env Api Upstream Config)
    (path : String) (hpath : path ≠ "") (hopen : env.openFile path = none) :
    (doImport env path).2.trace.count Event.closeFile = 1 ∧
    (doImport env path).2.trace.getLast? = some Event.closeFile := by
  obtain ⟨l, hl, hnot⟩ := importWithOut_trace env env.file
    (World.init.log (Event.openFile path))
  have hw : (doImport env path).2 =
      (importWithOut env env.file (World.init.log (Event.openFile path))).2.log
        Event.closeFile := by
    unfold doImport
    simp only [hpath, if_false, hopen]
    split <;> rfl
  have ht : (doImport env path).2.trace = ([Event.openFile path] ++ l) ++ [Event.closeFile] := by
    rw [hw]
    show (importWithOut env env.file (World.init.log (Event.openFile path))).2.trace ++
      [Event.closeFile] = _
    rw [hl]
    rfl
  rw [ht]
  refine ⟨?_, List.getLast?_concat _⟩
  simp [List.count_eq_zero_of_not_mem hnot]

/-- C14 on a successful run, a failing connection, a failing fetch, a failing
conversion, a failing encoder and a destination that rejects the writes. -/
theorem C14_witness :
    (doImport (pipelineEnv (Except.ok ()) (Except.ok ()) (Except.ok ())
        (Except.ok (str "\x7b\x7d")) Dest.acceptAll none) "out").2.trace.count
      Event.closeFile = 1 ∧
    (doImport (pipelineEnv (Except.error (GoError.other "dial")) (Except.ok ()) (Except.ok ())
        (Except.ok (str "\x7b\x7d")) Dest.acceptAll none) "out").2.trace.count
      Event.closeFile = 1 ∧
    (doImport (pipelineEnv (Except.ok ()) (Except.error (GoError.other "fetch")) (Except.ok ())
        (Except.ok (str "\x7b\x7d")) Dest.acceptAll none) "out").2.trace.count
      Event.closeFile = 1 ∧
    (doImport (pipelineEnv (Except.ok ()) (Except.ok ()) (Except.error (GoError.other "conv"))
        (Except.ok (str "\x7b\x7d")) Dest.acceptAll none) "out").2.trace.count
      Event.closeFile = 1 ∧
    (doImport (pipelineEnv (Except.ok ()) (Except.ok ()) (Except.ok ())
        (Except.error (GoError.other "json")) Dest.acceptAll none) "out").2.trace.count
      Event.closeFile = 1 ∧
    (doImport (pipelineEnv (Except.ok ()) (Except.ok ()) (Except.ok ())
        (Except.ok (str "\x7b\x7d")) Dest.rejectAll none) "out").2.trace.count
      Event.closeFile = 1 :=
  ⟨(C14_file_closed_once _ "out" (by decide) rfl).1,
    (C14_file_closed_once _ "out" (by decide) rfl).1,
    (C14_file_closed_once _ "out" (by decide) rfl).1,
    (C14_file_closed_once _ "out" (by decide) rfl).1,
    (C14_file_closed_once _ "out" (by decide) rfl).1,
    (C14_file_closed_once _ "out" (by decide) rfl).1⟩

/-! ## More claims on the serializer -/

/-- C16: when the encoder fails with `e`, `marshalJsonnet` returns `e` itself,
after the call to the encoder only, and the destination is left exactly as it
was: no call to `Write`, no byte written. -/
theorem C16_encoder_error_unchanged {V : Type} (enc : V → Except GoError Bytes) (v : V)
    (d : Dest) (w : World) (e : GoError) (h : enc v = Except.error e) :
    (marshalJsonnet enc v d w).1 = Ret.returned (some e) ∧
    (marshalJsonnet enc v d w).2.sink = w.sink ∧
    (marshalJsonnet enc v d w).2.trace = w.trace ++ [Event.marshalIndent] := by
  simp [marshalJsonnet, h, World.log]

/-- C16 on an encoder that rejects its value, with a sink that holds data. -/
theorem C16_witness :
    (marshalJsonnet (fun _ : Unit => Except.error (GoError.other "json: unsupported value")) ()
        Dest.acceptAll
        { trace := [], sink := { calls := [str "x"], data := str "x" } }).1 =
      Ret.returned (some (GoError.other "json: unsupported value")) ∧
    (marshalJsonnet (fun _ : Unit => Except.error (GoError.other "json: unsupported value")) ()
        Dest.acceptAll
        { trace := [], sink := { calls := [str "x"], data := str "x" } }).2.sink =
      { calls := [str "x"], data := str "x" } ∧
    (marshalJsonnet (fun _ : Unit => Except.error (GoError.other "json: unsupported value")) ()
        Dest.acceptAll
        { trace := [], sink := { calls := [str "x"], data := str "x" } }).2.trace =
      [] ++ [Event.marshalIndent] :=
  C16_encoder_error_unchanged
    (fun _ : Unit => Except.error (GoError.other "json: unsupported value")) () Dest.acceptAll
    { trace := [], sink := { calls := [str "x"], data := str "x" } }
    (GoError.other "json: unsupported value") rfl

theorem isKeyChar_not_space {c : Byte} (h : isKeyChar c = true) : isSpaceChar c = false := by
  simp only [isKeyChar, isSpaceChar, chSpace, Bool.or_eq_true, Bool.and_eq_true,
    decide_eq_true_eq, beq_iff_eq] at h ⊢
  simp only [beq_eq_false_iff_ne, ne_eq]
  unfold Byte at *
  omega

/-- No match on a line already rewritten: after the spaces comes the key. -/
theorem keyRe_unquoted (n : Nat) (k rest : Bytes) (hk : k ≠ [])
    (hall : ∀ c ∈ k, isKeyChar c = true) :
    keyRe.findSubmatchIndex (List.replicate n chSpace ++ k ++ chColon :: rest) = [] := by
  obtain ⟨c, k1, rfl⟩ := List.exists_cons_of_ne_nil hk
  have hc : isKeyChar c = true := hall c (List.mem_cons_self _ _)
  have := keyRe_first_not_quote (List.replicate n chSpace) (c :: k1 ++ chColon :: rest)
    (replicate_space n)
    (fun d ds hd => by
      simp only [List.cons_append, List.cons.injEq] at hd
      rw [← hd.1]
      exact ⟨isKeyChar_not_space hc, isKeyChar_not_quote hc⟩)
  simpa using this

/-- C18: on every line `replaceGroupsRe` with the key pattern stays in range.
Either there is no match and the line itself is returned, or the match has the
form `[0, e, keyb, keye]` with `1 ≤ keyb ≤ keye` and `keye + 1 ≤ len(line)`, the
three slices `in[:keyb-1]`, `in[keyb:keye]`, `in[keye+1:]` are valid, and the
result is two bytes shorter than the line. -/
theorem C18_slices_in_range (line : Bytes) :
    (keyRe.findSubmatchIndex line = [] ∧ replaceGroupsRe keyRe line = some line) ∨
    (∃ (e keyb keye : Nat),
      keyRe.findSubmatchIndex line = [0, (e : Int), (keyb : Int), (keye : Int)] ∧
      1 ≤ keyb ∧ keyb ≤ keye ∧ keye + 1 ≤ line.length ∧
      (slice line 0 ((keyb : Int) - 1)).isSome = true ∧
      (slice line (keyb : Int) (keye : Int)).isSome = true ∧
      (slice line ((keye : Int) + 1) (line.length : Int)).isSome = true ∧
      ∃ r, replaceGroupsRe keyRe line = some r ∧ r.length + 2 = line.length) := by
  by_cases hm : MatchesKeyPattern line
  · right
    obtain ⟨n, k, rest, hk, hall, rfl⟩ := hm
    have hlen : (List.replicate n chSpace ++ chQuote :: k ++ chQuote :: chColon :: rest).length
        = n + 1 + k.length + 2 + rest.length := by
      simp; omega
    have e1 : (((n + 1 : Nat) : Int) - 1) = ((n : Nat) : Int) := by push_cast; ring
    have e2 : (((n + 1 + k.length : Nat) : Int) + 1) = ((n + 1 + k.length + 1 : Nat) : Int) := by
      push_cast; ring
    refine ⟨n + 1 + k.length + 2, n + 1, n + 1 + k.length, keyRe_of_shape n k rest hk hall,
      by omega, by omega, by rw [hlen]; omega, ?_, ?_, ?_, ?_⟩
    · rw [e1]
      have := slice_nat (List.replicate n chSpace ++ chQuote :: k ++ chQuote :: chColon :: rest)
        0 n (by omega) (by rw [hlen]; omega)
      simp only [Nat.cast_zero] at this
      rw [this]; rfl
    · rw [slice_nat _ (n + 1) (n + 1 + k.length) (by omega) (by rw [hlen]; omega)]; rfl
    · rw [e2, slice_nat _ (n + 1 + k.length + 1) _ (by rw [hlen]; omega) (le_refl _)]; rfl
    · refine ⟨_, rewriteLine_shape n k rest hk hall, ?_⟩
      rw [hlen]
      simp
      omega
  · left
    have h0 : keyRe.findSubmatchIndex line = [] := by
      by_contra hne
      exact hm (keyRe_some_shape line hne)
    exact ⟨h0, rewriteLine_of_none line h0⟩

/-- C20: the rewrite is idempotent: `replaceGroupsRe` with the key pattern
returns a line on every input, and returns that line again when applied to
it. -/
theorem C20_rewrite_idempotent (line : Bytes) :
    ∃ r, replaceGroupsRe keyRe line = some r ∧ replaceGroupsRe keyRe r = some r := by
  by_cases hm : MatchesKeyPattern line
  · obtain ⟨n, k, rest, hk, hall, rfl⟩ := hm
    exact ⟨_, rewriteLine_shape n k rest hk hall,
      rewriteLine_of_none _ (keyRe_unquoted n k rest hk hall)⟩
  · exact ⟨line, rewriteLine_no_match line hm, rewriteLine_no_match line hm⟩

/-! ## Injectivity of the rewrite -/

/-- A prefix of characters of a class, followed by a character outside it, is
what `takeWhile` takes and `dropWhile` drops. -/
theorem span_run (p : Byte → Bool) (pre : Bytes) (c : Byte) (t : Bytes)
    (hpre : ∀ x ∈ pre, p x = true) (hc : p c = false) :
    (pre ++ c :: t).takeWhile p = pre ∧ (pre ++ c :: t).dropWhile p = c :: t := by
  induction pre with
  | nil => simp [List.takeWhile, List.dropWhile, hc]
  | cons x xs ih =>
    have hx : p x = true := hpre x (List.mem_cons_self _ _)
    obtain ⟨i1, i2⟩ := ih (fun y hy => hpre y (List.mem_cons_of_mem _ hy))
    simp [List.takeWhile, List.dropWhile, hx, i1, i2]

/-- A rewritten line does not begin, after its spaces, with a quote. -/
theorem unquoted_ne_quoted (n n2 : Nat) (k rest t : Bytes) (hk : k ≠ [])
    (hall : ∀ c ∈ k, isKeyChar c = true) :
    List.replicate n chSpace ++ k ++ chColon :: rest ≠
      List.replicate n2 chSpace ++ chQuote :: t := by
  obtain ⟨c, k1, rfl⟩ := List.exists_cons_of_ne_nil hk
  have hc : isKeyChar c = true := hall c (List.mem_cons_self _ _)
  intro h
  have a := (span_run isSpaceChar (List.replicate n chSpace) c (k1 ++ chColon :: rest)
    (replicate_space n) (isKeyChar_not_space hc)).2
  have b := (span_run isSpaceChar (List.replicate n2 chSpace) chQuote t
    (replicate_space n2) (by decide)).2
  have h2 : List.replicate n chSpace ++ c :: (k1 ++ chColon :: rest) =
      List.replicate n2 chSpace ++ chQuote :: t := by simpa using h
  rw [h2, b] at a
  simp only [List.cons.injEq] at a
  have hq := isKeyChar_not_quote hc
  rw [← a.1] at hq
  exact absurd hq (by decide)

/-- Two rewritten lines that are equal come from the same indentation, key and rest. -/
theorem unquoted_inj (n n2 : Nat) (k k2 rest rest2 : Bytes) (hk : k ≠ []) (hk2 : k2 ≠ [])
    (hall : ∀ c ∈ k, isKeyChar c = true) (hall2 : ∀ c ∈ k2, isKeyChar c = true)
    (h : List.replicate n chSpace ++ k ++ chColon :: rest =
      List.replicate n2 chSpace ++ k2 ++ chColon :: rest2) :
    n = n2 ∧ k = k2 ∧ rest = rest2 := by
  obtain ⟨c, k1, rfl⟩ := List.exists_cons_of_ne_nil hk
  obtain ⟨c2, k3, rfl⟩ := List.exists_cons_of_ne_nil hk2
  have hc : isKeyChar c = true := hall c (List.mem_cons_self _ _)
  have hc2 : isKeyChar c2 = true := hall2 c2 (List.mem_cons_self _ _)
  have a := span_run isSpaceChar (List.replicate n chSpace) c (k1 ++ chColon :: rest)
    (replicate_space n) (isKeyChar_not_space hc)
  have b := span_run isSpaceChar (List.replicate n2 chSpace) c2 (k3 ++ chColon :: rest2)
    (replicate_space n2) (isKeyChar_not_space hc2)
  have h2 : List.replicate n chSpace ++ c :: (k1 ++ chColon :: rest) =
      List.replicate n2 chSpace ++ c2 :: (k3 ++ chColon :: rest2) := by simpa using h
  rw [h2] at a
  have hn : List.replicate n chSpace = List.replicate n2 chSpace := a.1.symm.trans b.1
  have hrest : c :: (k1 ++ chColon :: rest) = c2 :: (k3 ++ chColon :: rest2) :=
    a.2.symm.trans b.2
  have hnn : n = n2 := by
    have := congrArg List.length hn
    simpa using this
  have a2 := span_run isKeyChar (c :: k1) chColon rest hall (by decide)
  have b2 := span_run isKeyChar (c2 :: k3) chColon rest2 hall2 (by decide)
  have h3 : (c :: k1) ++ chColon :: rest = (c2 :: k3) ++ chColon :: rest2 := by
    simpa using hrest
  rw [h3] at a2
  refine ⟨hnn, a2.1.symm.trans b2.1, ?_⟩
  have := a2.2.symm.trans b2.2
  simpa using this

/-- C19: on the lines whose first character other than a space is a double
quote, the line rewrite is injective: two such lines with the same rewrite are
equal. -/
theorem C19_rewrite_injective_on_quoted (l1 l2 : Bytes) (h1 : FirstNonSpaceIsQuote l1)
    (h2 : FirstNonSpaceIsQuote l2) (h : rewriteLine l1 = rewriteLine l2) : l1 = l2 := by
  obtain ⟨n1, t1, e1⟩ := h1
  obtain ⟨n2, t2, e2⟩ := h2
  by_cases m1 : MatchesKeyPattern l1
  · obtain ⟨a, k, rest, hk, hall, rfl⟩ := m1
    rw [rewriteLine_shape a k rest hk hall] at h
    by_cases m2 : MatchesKeyPattern l2
    · obtain ⟨a2, k2, rest2, hk2, hall2, rfl⟩ := m2
      rw [rewriteLine_shape a2 k2 rest2 hk2 hall2] at h
      obtain ⟨x, y, z⟩ := unquoted_inj a a2 k k2 rest rest2 hk hk2 hall hall2
        (Option.some.inj h)
      rw [x, y, z]
    · rw [rewriteLine_no_match l2 m2] at h
      have := Option.some.inj h
      rw [e2] at this
      exact absurd this (unquoted_ne_quoted a n2 k rest t2 hk hall)
  · rw [rewriteLine_no_match l1 m1] at h
    by_cases m2 : MatchesKeyPattern l2
    · obtain ⟨a2, k2, rest2, hk2, hall2, rfl⟩ := m2
      rw [rewriteLine_shape a2 k2 rest2 hk2 hall2] at h
      have := (Option.some.inj h).symm
      rw [e1] at this
      exact absurd this (unquoted_ne_quoted a2 n1 k2 rest2 t1 hk2 hall2)
    · rw [rewriteLine_no_match l2 m2] at h
      exact Option.some.inj h

/-- C19 on the lines `  "a": 1` and `  "a": 1`, whose rewrites agree. -/
theorem C19_witness :
    (FirstNonSpaceIsQuote (str "  \"a\": 1") ∧
      rewriteLine (str "  \"a\": 1") = rewriteLine (List.replicate 2 chSpace ++ str "\"a\": 1")) ∧
    str "  \"a\": 1" = List.replicate 2 chSpace ++ str "\"a\": 1" :=
  ⟨⟨⟨2, str "a\": 1", by decide⟩, by decide⟩,
    C19_rewrite_injective_on_quoted (str "  \"a\": 1")
      (List.replicate 2 chSpace ++ str "\"a\": 1") ⟨2, str "a\": 1", by decide⟩
      ⟨2, str "a\": 1", by decide⟩ (by decide)⟩

/-! ## The serializer on any destination -/

theorem allAccepted_append (d : Dest) (hist ps : List Bytes) (p : Bytes) :
    d.allAccepted hist (ps ++ [p]) =
      (d.allAccepted hist ps &&
        ((d.write { calls := hist ++ ps, data := [] } p).1.2 == none)) := by
  induction ps generalizing hist with
  | nil => simp [Dest.allAccepted]
  | cons q qs ih =>
    have h := ih (hist ++ [q])
    simp only [List.append_assoc, List.singleton_append] at h
    simp only [List.cons_append, Dest.allAccepted]
    rw [show qs.append [p] = qs ++ [p] from rfl, h, Bool.and_assoc]

/-- After a call to `Write`, all writes were accepted exactly when all writes
before were and this one reports no error. -/
theorem allAccepted_write (d : Dest) (s : Sink) (p : Bytes)
    (hs : d.allAccepted [] s.calls = true) :
    d.allAccepted [] (d.write s p).2.calls = true ↔ (d.write s p).1.2 = none := by
  have hcalls : (d.write s p).2.calls = s.calls ++ [p] := rfl
  have hres : (d.write { calls := [] ++ s.calls, data := [] } p).1 = (d.write s p).1 := by
    simp [Dest.write]
  rw [hcalls, allAccepted_append, hs, hres]
  simp

/-- `Flush` returns the sticky error it leaves, and keeps the sticky error in
step with the writes of the destination. -/
theorem flush_general (d : Dest) (b : BufWriter) (s : Sink)
    (hinv : b.err = none ↔ d.allAccepted [] s.calls = true) :
    (BufWriter.flush d b s).1 = (BufWriter.flush d b s).2.1.err ∧
      ((BufWriter.flush d b s).2.1.err = none ↔
        d.allAccepted [] (BufWriter.flush d b s).2.2.calls = true) := by
  obtain ⟨buf, err⟩ := b
  cases err with
  | some e => exact ⟨rfl, hinv⟩
  | none =>
    have hs : d.allAccepted [] s.calls = true := hinv.mp rfl
    by_cases h0 : buf.length = 0
    · have hfl : BufWriter.flush d { buf := buf, err := none } s =
          (none, { buf := buf, err := none }, s) := by
        simp [BufWriter.flush, h0]
      rw [hfl]
      exact ⟨rfl, hinv⟩
    · have hw := allAccepted_write d s buf hs
      cases he : (d.write s buf).1.2 with
      | none =>
        have hfull := destWrite_full d s buf he
        have hfl : BufWriter.flush d { buf := buf, err := none } s =
            (none, { buf := [], err := none }, (d.write s buf).2) := by
          simp [BufWriter.flush, h0, he, hfull]
        rw [hfl]
        exact ⟨rfl, by simpa [he] using hw.symm⟩
      | some e =>
        have hfl : BufWriter.flush d { buf := buf, err := none } s =
            (some e, { buf := buf.drop (d.write s buf).1.1, err := some e },
              (d.write s buf).2) := by
          simp [BufWriter.flush, h0, he]
        rw [hfl]
        refine ⟨rfl, ?_⟩
        constructor
        · intro h; cases h
        · intro hacc
          have := hw.mp hacc
          rw [he] at this
          cases this

theorem writeLoop_general (size : Nat) (d : Dest) (fuel : Nat) (b : BufWriter) (s : Sink)
    (p : Bytes) (nn : Nat) (hinv : b.err = none ↔ d.allAccepted [] s.calls = true) :
    ((BufWriter.writeLoop size d fuel b s p nn).1.err = none ↔
      d.allAccepted [] (BufWriter.writeLoop size d fuel b s p nn).2.1.calls = true) := by
  induction fuel generalizing b s p nn with
  | zero => exact hinv
  | succ f ih =>
    by_cases hc : p.length > b.available size ∧ b.err = none
    · have hs : d.allAccepted [] s.calls = true := hinv.mp hc.2
      by_cases h0 : b.buf.length = 0
      · rw [BufWriter.writeLoop, if_pos hc, if_pos h0]
        apply ih
        exact (allAccepted_write d s p hs).symm
      · rw [BufWriter.writeLoop, if_pos hc, if_neg h0]
        apply ih
        exact (flush_general d { b with buf := b.buf ++ p.take (min (b.available size) p.length) }
          s hinv).2
    · rw [writeLoop_exit _ _ _ _ _ _ _ hc]
      exact hinv

/-- `Write` returns the sticky error it leaves, and keeps it in step with the
writes of the destination. -/
theorem write_general (size : Nat) (d : Dest) (b : BufWriter) (s : Sink) (p : Bytes)
    (hinv : b.err = none ↔ d.allAccepted [] s.calls = true) :
    (BufWriter.write size d b s p).1.2 = (BufWriter.write size d b s p).2.1.err ∧
      ((BufWriter.write size d b s p).2.1.err = none ↔
        d.allAccepted [] (BufWriter.write size d b s p).2.2.calls = true) := by
  have hl := writeLoop_general size d 2 b s p 0 hinv
  unfold BufWriter.write
  simp only
  generalize BufWriter.writeLoop size d 2 b s p 0 = r at *
  obtain ⟨b1, s1, p1, nn⟩ := r
  obtain ⟨buf1, err1⟩ := b1
  cases err1 with
  | some e => exact ⟨rfl, hl⟩
  | none => exact ⟨rfl, hl⟩

/-- `WriteRune` returns the sticky error it leaves, and keeps it in step with
the writes of the destination. -/
theorem writeRune_general (size : Nat) (d : Dest) (b : BufWriter) (s : Sink) (c : Byte)
    (hinv : b.err = none ↔ d.allAccepted [] s.calls = true) :
    (BufWriter.writeRune size d b s c).1.2 = (BufWriter.writeRune size d b s c).2.1.err ∧
      ((BufWriter.writeRune size d b s c).2.1.err = none ↔
        d.allAccepted [] (BufWriter.writeRune size d b s c).2.2.calls = true) := by
  obtain ⟨f1, f2⟩ := flush_general d b s hinv
  obtain ⟨buf, err⟩ := b
  cases err with
  | some e => exact ⟨rfl, hinv⟩
  | none =>
    by_cases ha : BufWriter.available size { buf := buf, err := none } ≤ 0
    · cases hfl : (BufWriter.flush d { buf := buf, err := none } s).1 with
      | none =>
        have herr : (BufWriter.flush d { buf := buf, err := none } s).2.1.err = none := by
          rw [← f1, hfl]
        have hwr : BufWriter.writeRune size d { buf := buf, err := none } s c =
            ((1, none),
              { (BufWriter.flush d { buf := buf, err := none } s).2.1 with
                buf := (BufWriter.flush d { buf := buf, err := none } s).2.1.buf ++ [c] },
              (BufWriter.flush d { buf := buf, err := none } s).2.2) := by
          simp [BufWriter.writeRune, BufWriter.writeByte, ha, hfl]
        rw [hwr]
        exact ⟨herr.symm, f2⟩
      | some e =>
        have herr : (BufWriter.flush d { buf := buf, err := none } s).2.1.err = some e := by
          rw [← f1, hfl]
        have hwr : BufWriter.writeRune size d { buf := buf, err := none } s c =
            ((0, some e), (BufWriter.flush d { buf := buf, err := none } s).2.1,
              (BufWriter.flush d { buf := buf, err := none } s).2.2) := by
          simp [BufWriter.writeRune, BufWriter.writeByte, ha, hfl, herr]
        rw [hwr]
        exact ⟨herr.symm, f2⟩
    · have hwr : BufWriter.writeRune size d { buf := buf, err := none } s c =
          ((1, none), { buf := buf ++ [c], err := none }, s) := by
        simp [BufWriter.writeRune, BufWriter.writeByte, ha]
      rw [hwr]
      exact ⟨rfl, hinv⟩

/-- Leaving the loop at the end of the text: the result is the one of `Flush`,
`nil` exactly when the destination accepted every write. -/
theorem marshalExit_eof (d : Dest) (b : BufWriter) (s : Sink)
    (hinv : b.err = none ↔ d.allAccepted [] s.calls = true) :
    ∃ x, (marshalExit d (some GoError.eof) b s).1 = Ret.returned x ∧
      (x = none ↔ d.allAccepted [] (marshalExit d (some GoError.eof) b s).2.2.calls = true) := by
  obtain ⟨f1, f2⟩ := flush_general d b s hinv
  refine ⟨(BufWriter.flush d b s).1, ?_, ?_⟩
  · simp [marshalExit]
  · rw [f1]
    simpa [marshalExit] using f2

/-- Leaving the loop on the error of a write: that error is returned. -/
theorem marshalExit_write_error (d : Dest) (b : BufWriter) (s : Sink) (e : GoError)
    (hb : b.err = some e) (hinv : b.err = none ↔ d.allAccepted [] s.calls = true) :
    ∃ x, (marshalExit d (some e) b s).1 = Ret.returned x ∧
      (x = none ↔ d.allAccepted [] (marshalExit d (some e) b s).2.2.calls = true) := by
  have hex : marshalExit d (some e) b s = (Ret.returned (some e), b, s) := by
    obtain ⟨buf, err⟩ := b
    simp only at hb
    subst hb
    by_cases he : e = GoError.eof
    · simp [marshalExit, he, BufWriter.flush]
    · simp [marshalExit, he]
  rw [hex]
  refine ⟨some e, rfl, ?_⟩
  constructor
  · intro h; cases h
  · intro h
    have := hinv.mpr h
    rw [hb] at this
    cases this

/-- The loop of `marshalJsonnet` on any destination: it returns, and it returns
`nil` exactly when the destination accepted every write made. -/
theorem marshalLoop_general (size : Nat) (d : Dest) (hsize : 2 ≤ size) (fuel : Nat)
    (line : Bytes) (err : Option GoError) (rem : Bytes) (b : BufWriter) (s : Sink)
    (herr : err = none ∨ err = some GoError.eof) (hb : b.err = none)
    (hs : d.allAccepted [] s.calls = true) (hfuel : rem.length < fuel) :
    ∃ x, (marshalLoop size d fuel line err rem b s).1 = Ret.returned x ∧
      (x = none ↔
        d.allAccepted [] (marshalLoop size d fuel line err rem b s).2.2.calls = true) := by
  have hinv : b.err = none ↔ d.allAccepted [] s.calls = true := by simp [hb, hs]
  induction fuel generalizing line err rem b s with
  | zero => omega
  | succ f ih =>
    rcases herr with rfl | rfl
    · rw [marshalLoop]
      simp only
      have hrw : replaceGroupsRe keyRe line = some (rewritten line) :=
        rewriteLine_eq_rewritten line
      rw [hrw]
      simp only
      obtain ⟨w1, w2⟩ := write_general size d b s (rewritten line) hinv
      cases hw : (BufWriter.write size d b s (rewritten line)).1.2 with
      | some e =>
        simp only
        exact marshalExit_write_error d _ _ e (by rw [← w1, hw]) w2
      | none =>
        simp only
        have hb1 : (BufWriter.write size d b s (rewritten line)).2.1.err = none := by
          rw [← w1, hw]
        obtain ⟨r1, r2⟩ := writeRune_general size d
          (BufWriter.write size d b s (rewritten line)).2.1
          (BufWriter.write size d b s (rewritten line)).2.2 chNewline w2
        cases hr : (BufWriter.writeRune size d
            (BufWriter.write size d b s (rewritten line)).2.1
            (BufWriter.write size d b s (rewritten line)).2.2 chNewline).1.2 with
        | some e =>
          simp only
          exact marshalExit_write_error d _ _ e (by rw [← r1, hr]) r2
        | none =>
          simp only
          have hb2 : (BufWriter.writeRune size d
              (BufWriter.write size d b s (rewritten line)).2.1
              (BufWriter.write size d b s (rewritten line)).2.2 chNewline).2.1.err = none := by
            rw [← r1, hr]
          by_cases hrem : rem = []
          · subst hrem
            rw [readLine_nil size (by omega), marshalLoop_err]
            exact marshalExit_eof d _ _ r2
          · obtain ⟨p1, p2⟩ := readLine_progress size rem hsize hrem
            exact ih _ _ _ _ _ (Or.inl p1) hb2 (r2.mp hb2) (by omega) r2
    · rw [marshalLoop_err]
      exact marshalExit_eof d b s hinv

/-- The serializer on any destination, once the encoder has returned a text: it
returns, and it returns `nil` exactly when the destination accepted every
write made. -/
theorem marshalJsonnet_general {V : Type} (enc : V → Except GoError Bytes) (v : V) (d : Dest)
    (w : World) (text : Bytes) (henc : enc v = Except.ok text)
    (hw : d.allAccepted [] w.sink.calls = true) :
    ∃ x, (marshalJsonnet enc v d w).1 = Ret.returned x ∧
      (x = none ↔ d.allAccepted [] (marshalJsonnet enc v d w).2.sink.calls = true) := by
  unfold marshalJsonnet
  simp only [henc]
  have herr : (readLine defaultBufSize text).1.err = none ∨
      (readLine defaultBufSize text).1.err = some GoError.eof := by
    cases h : (readLine defaultBufSize text).1.err with
    | none => exact Or.inl rfl
    | some e => rw [readLine_err defaultBufSize text e h]; exact Or.inr rfl
  exact marshalLoop_general defaultBufSize d (by decide) _ _ _ _ _ _ herr rfl hw
    (Nat.lt_succ_of_le (readLine_le _ _))

/-- When the encoder fails, its error is the result. -/
theorem marshalJsonnet_encoder_error {V : Type} (enc : V → Except GoError Bytes) (v : V) (d : Dest) (w : World)
    (e : GoError) (h : enc v = Except.error e) :
    (marshalJsonnet enc v d w).1 = Ret.returned (some e) := by
  simp [marshalJsonnet, h]

/-- C15: from a state in which the destination has accepted every write so far,
`marshalJsonnet` returns `nil` exactly when the encoder succeeds and the
destination accepts every write made, the final flush included; when the
destination rejects a write, a non-nil error is returned; on a destination that
accepts all writes the result is `nil` for every encodable value, the end of
the text being no error; and the text `{}` of the empty map gives the line `{}`
followed by a newline. -/
theorem C15_nil_iff_writes_succeed {V : Type} (enc : V → Except GoError Bytes) (v : V)
    (d : Dest) (w : World) (hw : d.allAccepted [] w.sink.calls = true) :
    ((marshalJsonnet enc v d w).1 = Ret.returned none ↔
      (∃ text, enc v = Except.ok text) ∧
        d.allAccepted [] (marshalJsonnet enc v d w).2.sink.calls = true) ∧
    (d.allAccepted [] (marshalJsonnet enc v d w).2.sink.calls = false →
      ∃ e, (marshalJsonnet enc v d w).1 = Ret.returned (some e)) ∧
    (d.AcceptsAll → (∃ text, enc v = Except.ok text) →
      (marshalJsonnet enc v d w).1 = Ret.returned none) ∧
    (d.AcceptsAll → enc v = Except.ok (str "\x7b\x7d") →
      (marshalJsonnet enc v d w).1 = Ret.returned none ∧
      (marshalJsonnet enc v d w).2.sink.data = w.sink.data ++ str "\x7b\x7d\n") := by
  refine ⟨?_, ?_, ?_, ?_⟩
  · cases henc : enc v with
    | error e =>
      have h1 := (marshalJsonnet_encoder_error enc v d w e henc)
      rw [h1]
      simp
    | ok text =>
      obtain ⟨x, hx1, hx2⟩ := marshalJsonnet_general enc v d w text henc hw
      rw [hx1]
      constructor
      · intro h
        have hxn : x = none := by simpa using h
        exact ⟨⟨text, rfl⟩, hx2.mp hxn⟩
      · intro h
        rw [hx2.mpr h.2]
  · intro hrej
    cases henc : enc v with
    | error e => exact ⟨e, marshalJsonnet_encoder_error enc v d w e henc⟩
    | ok text =>
      obtain ⟨x, hx1, hx2⟩ := marshalJsonnet_general enc v d w text henc hw
      cases x with
      | none =>
        have := hx2.mp rfl
        rw [hrej] at this
        cases this
      | some e => exact ⟨e, hx1⟩
  · intro hd htext
    obtain ⟨text, henc⟩ := htext
    rw [acceptsAll_eq d hd]
    exact (marshalJsonnet_acceptAll enc v text w henc).1
  · intro hd henc
    rw [acceptsAll_eq d hd]
    obtain ⟨h1, h2, _⟩ := marshalJsonnet_acceptAll enc v (str "\x7b\x7d") w henc
    refine ⟨h1, ?_⟩
    rw [h2]
    have hl : ((readLines defaultBufSize ((str "\x7b\x7d").length + 2) (str "\x7b\x7d")).map
        fun l => rewritten l ++ [chNewline]).flatten = str "\x7b\x7d\n" := by decide
    rw [hl]

/-- C15 on the text of the empty map, with a destination that rejects every
write and with one that accepts every write. -/
theorem C15_witness :
    (∃ e, (marshalJsonnet (fun _ : Unit => Except.ok (str "\x7b\x7d")) () Dest.rejectAll
        World.init).1 = Ret.returned (some e)) ∧
    ((marshalJsonnet (fun _ : Unit => Except.ok (str "\x7b\x7d")) () Dest.acceptAll
        World.init).1 = Ret.returned none ∧
      (marshalJsonnet (fun _ : Unit => Except.ok (str "\x7b\x7d")) () Dest.acceptAll
        World.init).2.sink.data = World.init.sink.data ++ str "\x7b\x7d\n") :=
  ⟨(C15_nil_iff_writes_succeed (fun _ : Unit => Except.ok (str "\x7b\x7d")) () Dest.rejectAll
      World.init rfl).2.1 (by decide),
    (C15_nil_iff_writes_succeed (fun _ : Unit => Except.ok (str "\x7b\x7d")) () Dest.acceptAll
      World.init rfl).2.2.2 (fun _ _ => rfl) rfl⟩

end Gmailctl
